import Mathlib

/-!
Verification of the `spell` library (symmetric-delete spelling correction).

Words are modelled as lists of Unicode code points (`List Char`), matching the
Go code's use of `[]rune` for indexing and lengths.  Hashing works on the UTF-8
bytes of a word, as `getStringHash` does on `[]byte(str)`.  Machine integers
are modelled as `Nat`/`Int`, with reductions `% 2^32` / `% 2^64` exactly where
the Go code relies on fixed-width wrap-around.
-/

namespace SpellGo

abbrev Word := List Char

/-- UTF-8 encoding of a single code point (Go `[]byte(string(r))`). -/
def utf8Bytes (c : Char) : List Nat :=
  let v := c.toNat
  if v < 0x80 then [v]
  else if v < 0x800 then
    [0xC0 ||| (v >>> 6), 0x80 ||| (v &&& 0x3F)]
  else if v < 0x10000 then
    [0xE0 ||| (v >>> 12), 0x80 ||| ((v >>> 6) &&& 0x3F), 0x80 ||| (v &&& 0x3F)]
  else
    [0xF0 ||| (v >>> 18), 0x80 ||| ((v >>> 12) &&& 0x3F),
      0x80 ||| ((v >>> 6) &&& 0x3F), 0x80 ||| (v &&& 0x3F)]

/-- UTF-8 bytes of a word (Go `[]byte(str)`). -/
def wordBytes (w : Word) : List Nat :=
  (w.map utf8Bytes).flatten

/-- FNV-1a 32-bit hash over the UTF-8 bytes of a word (Go `getStringHash`). -/
def getStringHash (s : Word) : Nat :=
  (wordBytes s).foldl (fun h b => ((h ^^^ b) * 16777619) % 2 ^ 32) 2166136261

/-- Loop body of Go `substring`: iterate rune index `i` over the string
(`rem` counts the remaining positions, so the loop runs `s.length` times in
total), remembering the start position and returning the slice at `i == end`.
The slice `s[startStrIdx:j]` of the Go code (byte positions of rune
boundaries) is `(s.take i).drop startIdx` on the rune list. -/
def substringLoop (s : Word) (start e : Int) : Nat → Nat → Nat → Word
  | 0, _, startIdx => s.drop startIdx
  | rem + 1, i, startIdx =>
    if (i : Int) = e then (s.take i).drop (if (i : Int) = start then i else startIdx)
    else substringLoop s start e rem (i + 1) (if (i : Int) = start then i else startIdx)

/-- Go `substring(s, start, end)`: code-point based substring. -/
def substring (s : Word) (start e : Int) : Word :=
  if (s.length : Int) ≤ start then [] else substringLoop s start e s.length 0 0

/-- Go `removeChar(str, index)`. -/
def removeChar (s : Word) (index : Int) : Word :=
  substring s 0 index ++ substring s (index + 1) (s.length : Int)

/-- Closed form of the `substring` loop, for any intermediate state with
`i + rem = s.length` (the relation the loop maintains). -/
theorem substringLoop_spec (s : Word) (start e : Int) :
    ∀ rem i startIdx, i + rem = s.length →
      substringLoop s start e rem i startIdx =
        if (i : Int) ≤ e ∧ e < (s.length : Int) then
          (s.take e.toNat).drop
            (if (i : Int) ≤ start ∧ start ≤ e then start.toNat else startIdx)
        else
          s.drop
            (if (i : Int) ≤ start ∧ start < (s.length : Int) then start.toNat
             else startIdx) := by
  intro rem
  induction rem with
  | zero =>
    intro i startIdx hlen
    rw [substringLoop]
    split_ifs <;>
      first
        | rfl
        | omega
        | (exfalso; omega)
        | (congr 1 <;> first | rfl | omega)
  | succ n ih =>
    intro i startIdx hlen
    rw [substringLoop]
    by_cases he : (i : Int) = e
    · rw [if_pos he]
      split_ifs <;>
        first
          | rfl
          | omega
          | (exfalso; omega)
          | (congr 1 <;> first | rfl | omega)
          | (congr 1 <;> first | rfl | omega | (congr 1 <;> first | rfl | omega))
    · rw [if_neg he, ih (i + 1) _ (by omega)]
      split_ifs <;>
        first
          | rfl
          | omega
          | (exfalso; omega)
          | (congr 1 <;> first | rfl | omega)
          | (congr 1 <;> first | rfl | omega | (congr 1 <;> first | rfl | omega))

/-- Closed form of Go `substring`. -/
theorem substring_spec (s : Word) (start e : Int) :
    substring s start e =
      if (s.length : Int) ≤ start then []
      else if 0 ≤ e ∧ e < (s.length : Int) then
        (s.take e.toNat).drop (if 0 ≤ start ∧ start ≤ e then start.toNat else 0)
      else
        s.drop (if 0 ≤ start then start.toNat else 0) := by
  rw [substring]
  by_cases h : (s.length : Int) ≤ start
  · simp [h]
  · simp only [h, if_false]
    rw [substringLoop_spec s start e s.length 0 0 (by omega)]
    simp only [Nat.cast_zero]
    by_cases h1 : 0 ≤ e ∧ e < (s.length : Int)
    · simp [h1]
    · simp only [h1, if_false]
      by_cases h2 : 0 ≤ start
      · have : 0 ≤ start ∧ start < (s.length : Int) := ⟨h2, by omega⟩
        simp [h2, this]
      · have : ¬(0 ≤ start ∧ start < (s.length : Int)) := by
          rintro ⟨a, b⟩; omega
        simp [h2, this]

/-- `substring` with in-range natural bounds is `take`/`drop`. -/
theorem substring_nat (s : Word) (a b : Nat) (hab : a ≤ b) (ha : a < s.length) :
    substring s (a : Int) (b : Int) = (s.take b).drop a := by
  rw [substring_spec]
  have h1 : ¬((s.length : Int) ≤ (a : Int)) := by omega
  simp only [h1, if_false]
  by_cases h2 : b < s.length
  · have hc : (0 : Int) ≤ (b : Int) ∧ (b : Int) < (s.length : Int) := by
      constructor <;> omega
    have hd : (0 : Int) ≤ (a : Int) ∧ (a : Int) ≤ (b : Int) := by
      constructor <;> omega
    simp [hc, hd]
  · have hc : ¬((0 : Int) ≤ (b : Int) ∧ (b : Int) < (s.length : Int)) := by
      rintro ⟨x, y⟩; omega
    have hd : (0 : Int) ≤ (a : Int) := by omega
    simp only [hc, if_false, hd, if_true, Int.toNat_natCast]
    rw [List.take_of_length_le (by omega)]

/-- `removeChar` at an in-range natural index deletes that code point. -/
theorem removeChar_nat (s : Word) (i : Nat) (hi : i < s.length) :
    removeChar s (i : Int) = s.take i ++ s.drop (i + 1) := by
  rw [removeChar]
  have h1 : substring s 0 (i : Int) = s.take i := by
    have := substring_nat s 0 i (by omega) (by omega)
    simpa using this
  rw [h1]
  by_cases h2 : i + 1 < s.length
  · have := substring_nat s (i + 1) s.length (by omega) (by omega)
    simp only [Nat.cast_add, Nat.cast_one] at this
    rw [this, List.take_of_length_le (le_refl _)]
  · have hlen : s.length = i + 1 := by omega
    have h3 : substring s ((i : Int) + 1) (s.length : Int) = [] := by
      rw [substring_spec]
      have : (s.length : Int) ≤ (i : Int) + 1 := by omega
      simp [this]
    rw [h3]
    rw [List.drop_of_length_le (by omega)]

theorem removeChar_length (s : Word) (i : Nat) (hi : i < s.length) :
    (removeChar s (i : Int)).length = s.length - 1 := by
  rw [removeChar_nat s i hi]
  simp only [List.length_append, List.length_take, List.length_drop]
  omega

/-! ## Association-list maps (Go `map` semantics for the operations used) -/

def alGet {α β : Type} [DecidableEq α] : List (α × β) → α → Option β
  | [], _ => none
  | (k', v) :: t, k => if k' = k then some v else alGet t k

def alPut {α β : Type} [DecidableEq α] : List (α × β) → α → β → List (α × β)
  | [], k, v => [(k, v)]
  | (k', v') :: t, k, v => if k' = k then (k, v) :: t else (k', v') :: alPut t k v

def alRemove {α β : Type} [DecidableEq α] : List (α × β) → α → List (α × β)
  | [], _ => []
  | (k', v') :: t, k => if k' = k then t else (k', v') :: alRemove t k

/-! ## Data model -/

/-- Go `WordData` is `map[string]interface{}`; its zero value is the nil map.
The values are opaque; we model them as words. -/
abbrev WordData := Option (List (Word × Word))

/-- Go `Entry`. -/
structure Entry where
  frequency : Nat
  word : Word
  wordData : WordData
  deriving DecidableEq

/-- The Go zero value of `Entry` (returned by `library.load` on a miss). -/
def zeroEntry : Entry := ⟨0, [], none⟩

/-- Go `deleteEntry`. -/
structure DeleteEntry where
  len : Nat
  runes : Word
  str : Word
  deriving DecidableEq

/-- Go `Spell` (the fields touched by the modelled operations). -/
structure SpellState where
  maxEditDistance : Nat
  prefixLength : Nat
  cumulativeFreq : Nat
  dictionaryDeletes : List (String × List (Nat × List DeleteEntry))
  longestWord : Nat
  library : List (String × List (Word × Entry))
  deriving DecidableEq

/-- Go `New()`: defaults `MaxEditDistance = 2`, `PrefixLength = 7`. -/
def newSpell : SpellState := ⟨2, 7, 0, [], 0, []⟩

def defaultDict : String := "default"

/-- Go `library.load`. -/
def libraryLoad (st : SpellState) (dict : String) (word : Word) : Option Entry :=
  (alGet st.library dict).bind (fun d => alGet d word)

/-- Go `library.store`. -/
def libraryStore (st : SpellState) (dict : String) (word : Word) (e : Entry) :
    SpellState :=
  let d := (alGet st.library dict).getD []
  { st with library := alPut st.library dict (alPut d word e) }

/-- Go `library.remove`. -/
def libraryRemove (st : SpellState) (dict : String) (word : Word) :
    Bool × SpellState :=
  match alGet st.library dict with
  | none => (false, st)
  | some d =>
    if (alGet d word).isSome then
      (true, { st with library := alPut st.library dict (alRemove d word) })
    else (false, st)

/-- Go `dictionaryDeletes.load`. -/
def dictDeletesLoad (st : SpellState) (dict : String) (key : Nat) :
    Option (List DeleteEntry) :=
  (alGet st.dictionaryDeletes dict).bind (fun m => alGet m key)

/-- Go `dictionaryDeletes.add` (appends at the end of the bucket). -/
def dictDeletesAdd (st : SpellState) (dict : String) (key : Nat)
    (entry : DeleteEntry) : SpellState :=
  let m := (alGet st.dictionaryDeletes dict).getD []
  let bucket := (alGet m key).getD []
  let dd := alPut st.dictionaryDeletes dict (alPut m key (bucket ++ [entry]))
  { st with dictionaryDeletes := dd }

/-! ## The delete generator -/

/-- Go `generateDeletes`.  The Go `deletes` set (`map[uint32]bool`) is
modelled as a duplicate-free list of hashes, and the inner
`for i := 0; i < wordLen; i++` loop as a fold over the indices.  The
recursion always descends into a word one code point shorter, so `fuel`
initialised to `word.length` (by `getDeletes`) makes the structural
recursion coincide with the Go recursion: at `fuel = 0` the word has length
0 and the function returns `ds` either way. -/
def generateDeletes (maxEdit : Nat) : Nat → Word → Nat → List Nat → List Nat
  | 0, _, _, ds => ds
  | fuel + 1, word, editDistance, ds =>
    if word.length > 1 then
      (List.range word.length).foldl
        (fun ds' (i : Nat) =>
          let deleteWord := removeChar word (i : Int)
          let deleteHash := getStringHash deleteWord
          if deleteHash ∈ ds' then ds'
          else
            if editDistance + 1 < maxEdit then
              generateDeletes maxEdit fuel deleteWord (editDistance + 1)
                (ds' ++ [deleteHash])
            else ds' ++ [deleteHash])
        ds
    else ds

/-- Go `getDeletes`: hash of the prefix plus the generated delete hashes. -/
def getDeletes (st : SpellState) (word : Word) : List Nat :=
  let word' :=
    if word.length > st.prefixLength then substring word 0 (st.prefixLength : Int)
    else word
  generateDeletes st.maxEditDistance word'.length word' 0 [getStringHash word']

/-! ## Speller operations -/

/-- Go `AddEntry` (with the dictionary option resolved to `dictName`).
`cumulativeFreq` is a `uint64`: additions wrap modulo `2^64`, and the code
adds `^(de.Frequency-1)`, the two's-complement negation of the new frequency.
`longestWord` is a `uint32`: the Go code stores `uint32(len([]rune(word)))`,
which wraps modulo `2^32`. -/
def addEntry (st : SpellState) (de : Entry) (dictName : String) :
    Bool × SpellState :=
  let word := de.word
  let st1 := { st with cumulativeFreq := (st.cumulativeFreq + de.frequency) % 2 ^ 64 }
  if (libraryLoad st1 dictName word).isSome then
    let st2 := { st1 with cumulativeFreq :=
      (st1.cumulativeFreq + (2 ^ 64 - de.frequency % 2 ^ 64) % 2 ^ 64) % 2 ^ 64 }
    (false, libraryStore st2 dictName word de)
  else
    let st2 := libraryStore st1 dictName word de
    let wordLength := word.length % 2 ^ 32
    let st3 :=
      if wordLength > st2.longestWord then { st2 with longestWord := wordLength }
      else st2
    let ds := getDeletes st3 word
    let st4 :=
      if ds.length > 0 then
        let record := DeleteEntry.mk word.length word word
        ds.foldl (fun acc h => dictDeletesAdd acc dictName h record) st3
      else st3
    (true, st4)

/-- Go `GetEntry` (returns the entry when the word exists). -/
def getEntry (st : SpellState) (word : Word) (dictName : String) : Option Entry :=
  libraryLoad st dictName word

/-- Go `GetLongestWord`. -/
def getLongestWord (st : SpellState) : Nat :=
  st.longestWord

/-- Go `RemoveEntry`. -/
def removeEntry (st : SpellState) (word : Word) (dictName : String) :
    Bool × SpellState :=
  libraryRemove st dictName word

/-! ## The lookup engine -/

/-- Go suggestion levels. -/
inductive SuggestionLevel where
  | best
  | closest
  | all
  deriving DecidableEq

/-- Go `Suggestion` (distance plus embedded `Entry`). -/
structure Suggestion where
  distance : Int
  entry : Entry
  deriving DecidableEq

/-- Modelled from the spec: the default distance callback is the external
`strmet.DamerauLevenshteinRunes`.  Per the spec's metric contract and
glossary, it computes the Damerau–Levenshtein distance over code points
(insertions, deletions, substitutions, adjacent transpositions).  This is the
plain recursive form of that distance. -/
def damerauLevenshteinAux : Nat → Word → Word → Nat
  | 0, xs, ys => xs.length + ys.length
  | _ + 1, [], ys => ys.length
  | _ + 1, x :: xs, [] => (x :: xs).length
  | fuel + 1, x :: xs, y :: ys =>
    let del := damerauLevenshteinAux fuel xs (y :: ys) + 1
    let ins := damerauLevenshteinAux fuel (x :: xs) ys + 1
    let sub := damerauLevenshteinAux fuel xs ys + (if x = y then 0 else 1)
    let base := min del (min ins sub)
    match xs, ys with
    | x2 :: xs', y2 :: ys' =>
      if x = y2 ∧ y = x2 then min base (damerauLevenshteinAux fuel xs' ys' + 1)
      else base
    | _, _ => base

/-- Every recursive call strictly decreases `|a| + |b|`, so this fuel always
suffices and the fuel-out case (which returns an upper bound anyway) is
never reached. -/
def damerauLevenshtein (a b : Word) : Nat :=
  damerauLevenshteinAux (a.length + b.length + 1) a b

/-- Modelled from the spec: the metric callback contract — return the true
distance when it is at most `maxDist`, and a negative value otherwise. -/
def damerauLevenshteinRunes (a b : Word) (maxDist : Int) : Int :=
  if (damerauLevenshtein a b : Int) ≤ maxDist then damerauLevenshtein a b else -1

/-- The comparator of the default `sortFunc`: ascending distance, ties broken
by descending frequency. -/
def suggestionLess (s1 s2 : Suggestion) : Bool :=
  if s1.distance < s2.distance then true
  else if s1.distance = s2.distance then decide (s1.entry.frequency > s2.entry.frequency)
  else false

def insertSorted (a : Suggestion) : List Suggestion → List Suggestion
  | [] => [a]
  | b :: t => if suggestionLess a b then a :: b :: t else b :: insertSorted a t

/-- The default `sortFunc` orders by `suggestionLess` (Go uses the unstable
`sort.Slice`; any sorted permutation is consistent with it, and the
modelled claims depend only on membership). -/
def defaultSortFunc (l : List Suggestion) : List Suggestion :=
  l.foldr insertSorted []

/-- Go `lookupParams` with the dictionary option already resolved. -/
structure LookupParams where
  dictName : String
  distanceFunction : Word → Word → Int → Int
  editDistance : Nat
  prefixLength : Nat
  sortFunc : List Suggestion → List Suggestion
  suggestionLevel : SuggestionLevel

/-- Go `defaultLookupParams`. -/
def defaultLookupParams (st : SpellState) : LookupParams :=
  ⟨defaultDict, damerauLevenshteinRunes, st.maxEditDistance, st.prefixLength,
    defaultSortFunc, SuggestionLevel.best⟩

/-- Go `newDictSuggestion`: attaches the library's entry for the word, or the
zero `Entry` when the word is absent. -/
def newDictSuggestion (st : SpellState) (dictName : String) (input : Word)
    (dist : Int) : Suggestion :=
  ⟨dist, (libraryLoad st dictName input).getD zeroEntry⟩

/-- Go `abs`. -/
def intAbs (a : Int) : Int := if a < 0 then -a else a

/-- Go `strings.Contains(s, sub)`: `sub` occurs as a contiguous substring of
`s` (on code points; equivalent to byte containment for the valid UTF-8
strings modelled here, and only used on single-code-point `sub`). -/
def goContains (s sub : Word) : Bool :=
  (List.range (s.length + 1)).any (fun i => sub.isPrefixOf (s.drop i))

/-- The mutable state threaded through the inner suggestion loop of `Lookup`:
`consideredSuggestions`, `results` and the (shrinking) `editDistance`. -/
structure InnerState where
  consideredSuggestions : List Word
  results : List Suggestion
  editDistance : Int

/-- The `if dist <= editDistance { ... }` block of `Lookup`. -/
def incorporate (st : SpellState) (p : LookupParams) (rstr : Word) (dist : Int)
    (is : InnerState) : InnerState :=
  if dist ≤ is.editDistance then
    match is.results with
    | [] =>
      let ed' := if p.suggestionLevel ≠ SuggestionLevel.all then dist else is.editDistance
      let res' := is.results ++ [newDictSuggestion st p.dictName rstr dist]
      { is with editDistance := ed', results := res' }
    | first :: _ =>
      match p.suggestionLevel with
      | SuggestionLevel.closest =>
        let results' := if dist < is.editDistance then [] else is.results
        let res' := results' ++ [newDictSuggestion st p.dictName rstr dist]
        { is with editDistance := dist, results := res' }
      | SuggestionLevel.best =>
        let entry := (libraryLoad st p.dictName rstr).getD zeroEntry
        if dist < is.editDistance ∨ entry.frequency > first.entry.frequency then
          let res' := is.results.set 0 (newDictSuggestion st p.dictName rstr dist)
          { is with editDistance := dist, results := res' }
        else is
      | SuggestionLevel.all =>
        let res' := is.results ++ [newDictSuggestion st p.dictName rstr dist]
        { is with results := res' }
  else is

/-- One iteration of the inner `for _, suggestion := range suggestions` loop
of `Lookup`: the filter cascade followed by the distance computation. -/
def processSuggestion (st : SpellState) (p : LookupParams) (input : Word)
    (inputLen inputPrefixLen : Int) (candidate : Word) (candidateLen : Int)
    (is : InnerState) (r : DeleteEntry) : InnerState :=
  let suggestionLen : Int := r.len
  if r.str = input then is
  else if intAbs (suggestionLen - inputLen) > is.editDistance ∨
      suggestionLen < candidateLen ∨
      (suggestionLen = candidateLen ∧ r.str ≠ candidate) then is
  else
    let suggPrefixLen := min suggestionLen (p.prefixLength : Int)
    if suggPrefixLen > inputPrefixLen ∧
        suggPrefixLen - candidateLen > is.editDistance then is
    else if candidateLen = 0 then
      let dist := max inputLen suggestionLen
      if dist > is.editDistance ∨ r.str ∈ is.consideredSuggestions then is
      else
        incorporate st p r.str dist
          { is with consideredSuggestions := r.str :: is.consideredSuggestions }
    else if suggestionLen = 1 then
      let dist : Int := if goContains input r.str then inputLen - 1 else inputLen
      if dist > is.editDistance ∨ r.str ∈ is.consideredSuggestions then is
      else
        incorporate st p r.str dist
          { is with consideredSuggestions := r.str :: is.consideredSuggestions }
    else if r.str ∈ is.consideredSuggestions then is
    else
      let is' := { is with consideredSuggestions := r.str :: is.consideredSuggestions }
      let dist := p.distanceFunction input r.runes is.editDistance
      if dist < 1 then is'
      else incorporate st p r.str dist is'

/-- The state of the outer candidate loop of `Lookup`. -/
structure LoopState where
  candidates : List Word
  idx : Nat
  consideredDeletes : List Word
  consideredSuggestions : List Word
  results : List Suggestion
  editDistance : Int

/-- The `for i := 0; i < candidateLen; i++` candidate-expansion loop:
`acc` is `(consideredDeletes, candidates)`. -/
def expandLoop (candidate : Word) (candidateLen : Nat)
    (cd cands : List Word) : List Word × List Word :=
  (List.range candidateLen).foldl
    (fun (acc : List Word × List Word) (i : Nat) =>
      let deleteWord := removeChar candidate (i : Int)
      if deleteWord ∈ acc.1 then acc
      else (deleteWord :: acc.1, acc.2 ++ [deleteWord]))
    (cd, cands)

/-- The outer `for i := 0; i < len(candidates); i++` loop of `Lookup`.
`candidates` only grows, and every appended candidate is fresh in
`consideredDeletes`, so each candidate is a distinct sublist of the first
one; the supplied fuel (`2^(|input|+1)+2` from `lookup`) therefore exceeds
the number of iterations the Go loop can perform.  `dead` keeps (`true`) or
removes (`false`) the unreachable inner length check, see C9. -/
def lookupLoop (st : SpellState) (p : LookupParams) (dead : Bool) (input : Word)
    (inputLen inputPrefixLen : Int) : Nat → LoopState → List Suggestion
  | 0, ls => ls.results
  | fuel + 1, ls =>
    match ls.candidates[ls.idx]? with
    | none => ls.results
    | some candidate =>
      let candidateLen : Int := candidate.length
      let lengthDiff := inputPrefixLen - candidateLen
      if lengthDiff > ls.editDistance then
        if p.suggestionLevel = SuggestionLevel.all then
          lookupLoop st p dead input inputLen inputPrefixLen fuel
            { ls with idx := ls.idx + 1 }
        else ls.results
      else
        let bucket := (dictDeletesLoad st p.dictName (getStringHash candidate)).getD []
        let is1 := bucket.foldl
          (processSuggestion st p input inputLen inputPrefixLen candidate candidateLen)
          ⟨ls.consideredSuggestions, ls.results, ls.editDistance⟩
        let ls1 : LoopState := ⟨ls.candidates, ls.idx, ls.consideredDeletes,
          is1.consideredSuggestions, is1.results, is1.editDistance⟩
        let ls2 :=
          if lengthDiff < ls1.editDistance ∧ candidateLen ≤ (p.prefixLength : Int) then
            if dead ∧ (p.suggestionLevel ≠ SuggestionLevel.all ∧
                lengthDiff > ls1.editDistance) then ls1
            else
              let ec := expandLoop candidate candidate.length
                ls1.consideredDeletes ls1.candidates
              ⟨ec.2, ls1.idx, ec.1, ls1.consideredSuggestions, ls1.results,
                ls1.editDistance⟩
          else ls1
        lookupLoop st p dead input inputLen inputPrefixLen fuel
          { ls2 with idx := ls2.idx + 1 }

def lookupFuel (n : Nat) : Nat := 2 ^ (n + 1) + 2

/-- Go `Lookup` (with already-validated params), with the C9 flag. -/
def lookupWith (dead : Bool) (st : SpellState) (input : Word) (p : LookupParams) :
    List Suggestion :=
  let exact := libraryLoad st p.dictName input
  let results0 :=
    if exact.isSome then [newDictSuggestion st p.dictName input 0] else []
  if exact.isSome ∧ p.suggestionLevel ≠ SuggestionLevel.all then results0
  else if p.editDistance = 0 then results0
  else
    let inputLen : Int := input.length
    let inputPrefixLen : Int := min inputLen (p.prefixLength : Int)
    let firstCandidate := substring input 0 inputPrefixLen
    p.sortFunc (lookupLoop st p dead input inputLen inputPrefixLen
      (lookupFuel input.length)
      ⟨[firstCandidate], 0, [], [input], results0, (p.editDistance : Int)⟩)

/-- Go `Lookup`. -/
def lookup (st : SpellState) (input : Word) (p : LookupParams) : List Suggestion :=
  lookupWith true st input p

/-! ## Shape of lookup results

Every suggestion `Lookup` ever places in `results` is a `newDictSuggestion`:
its attached entry is looked up in the library at emission time (or is the
zero `Entry`), and it is never re-validated afterwards. -/

theorem mem_incorporate_results (st : SpellState) (p : LookupParams)
    (rstr : Word) (dist : Int) (is : InnerState) (x : Suggestion)
    (hx : x ∈ (incorporate st p rstr dist is).results) :
    x ∈ is.results ∨ ∃ s d, x = newDictSuggestion st p.dictName s d := by
  rw [incorporate] at hx
  by_cases h1 : dist ≤ is.editDistance
  · rw [if_pos h1] at hx
    cases hres : is.results with
    | nil =>
      rw [hres] at hx
      dsimp only at hx
      simp only [List.nil_append, List.mem_singleton] at hx
      exact Or.inr ⟨rstr, dist, hx⟩
    | cons first rest =>
      rw [hres] at hx
      dsimp only at hx
      cases hlev : p.suggestionLevel with
      | closest =>
        rw [hlev] at hx
        dsimp only at hx
        rw [← hres] at hx
        rcases List.mem_append.mp hx with h2 | h2
        · split_ifs at h2
          · simp at h2
          · exact Or.inl (hres ▸ h2)
        · simp only [List.mem_singleton] at h2
          exact Or.inr ⟨rstr, dist, h2⟩
      | best =>
        rw [hlev] at hx
        dsimp only at hx
        split_ifs at hx
        · dsimp only at hx
          rcases List.mem_or_eq_of_mem_set hx with h2 | h2
          · exact Or.inl (hres ▸ h2)
          · exact Or.inr ⟨rstr, dist, h2⟩
        · exact Or.inl (hres ▸ hx)
      | all =>
        rw [hlev] at hx
        dsimp only at hx
        rcases List.mem_append.mp hx with h2 | h2
        · exact Or.inl (hres ▸ h2)
        · simp only [List.mem_singleton] at h2
          exact Or.inr ⟨rstr, dist, h2⟩
  · rw [if_neg h1] at hx
    exact Or.inl hx

theorem mem_processSuggestion_results (st : SpellState) (p : LookupParams)
    (input : Word) (inputLen inputPrefixLen : Int) (candidate : Word)
    (candidateLen : Int) (is : InnerState) (r : DeleteEntry) (x : Suggestion)
    (hx : x ∈ (processSuggestion st p input inputLen inputPrefixLen candidate
      candidateLen is r).results) :
    x ∈ is.results ∨ ∃ s d, x = newDictSuggestion st p.dictName s d := by
  rw [processSuggestion] at hx
  dsimp only at hx
  split_ifs at hx <;>
    first
      | exact Or.inl hx
      | exact (mem_incorporate_results _ _ _ _ _ _ hx).imp (fun h => h) (fun h => h)

theorem mem_foldl_processSuggestion_results (st : SpellState) (p : LookupParams)
    (input : Word) (inputLen inputPrefixLen : Int) (candidate : Word)
    (candidateLen : Int) :
    ∀ (bucket : List DeleteEntry) (is : InnerState) (x : Suggestion),
      x ∈ (bucket.foldl (processSuggestion st p input inputLen inputPrefixLen
        candidate candidateLen) is).results →
      x ∈ is.results ∨ ∃ s d, x = newDictSuggestion st p.dictName s d := by
  intro bucket
  induction bucket with
  | nil => intro is x hx; exact Or.inl hx
  | cons r t ih =>
    intro is x hx
    rw [List.foldl_cons] at hx
    rcases ih _ x hx with h1 | h1
    · exact mem_processSuggestion_results _ _ _ _ _ _ _ _ _ _ h1
    · exact Or.inr h1

theorem mem_lookupLoop_results (st : SpellState) (p : LookupParams)
    (dead : Bool) (input : Word) (inputLen inputPrefixLen : Int) :
    ∀ (fuel : Nat) (ls : LoopState) (x : Suggestion),
      x ∈ lookupLoop st p dead input inputLen inputPrefixLen fuel ls →
      x ∈ ls.results ∨ ∃ s d, x = newDictSuggestion st p.dictName s d := by
  intro fuel
  induction fuel with
  | zero => intro ls x hx; exact Or.inl hx
  | succ n ih =>
    intro ls x hx
    rw [lookupLoop] at hx
    cases hc : ls.candidates[ls.idx]? with
    | none =>
      rw [hc] at hx
      exact Or.inl hx
    | some candidate =>
      rw [hc] at hx
      dsimp only at hx
      by_cases h1 : inputPrefixLen - (candidate.length : Int) > ls.editDistance
      · rw [if_pos h1] at hx
        by_cases h2 : p.suggestionLevel = SuggestionLevel.all
        · rw [if_pos h2] at hx
          rcases ih _ x hx with h3 | h3
          · exact Or.inl h3
          · exact Or.inr h3
        · rw [if_neg h2] at hx
          exact Or.inl hx
      · rw [if_neg h1] at hx
        rcases ih _ x hx with h3 | h3
        · -- membership in the post-bucket (and possibly expanded) state:
          -- every branch carries the fold's results unchanged
          dsimp only at h3
          split_ifs at h3 <;>
            exact (mem_foldl_processSuggestion_results _ _ _ _ _ _ _ _ _ _
              h3).imp (fun h => h) (fun h => h)
        · exact Or.inr h3

/-- Every suggestion returned by `Lookup` is a `newDictSuggestion`, provided
the sort function only permutes (or drops) elements. -/
theorem mem_lookup_shape (st : SpellState) (input : Word) (p : LookupParams)
    (dead : Bool)
    (hsort : ∀ (l : List Suggestion) (y : Suggestion), y ∈ p.sortFunc l → y ∈ l)
    (x : Suggestion) (hx : x ∈ lookupWith dead st input p) :
    ∃ s d, x = newDictSuggestion st p.dictName s d := by
  rw [lookupWith] at hx
  dsimp only at hx
  by_cases hex : (libraryLoad st p.dictName input).isSome = true
  · by_cases hlev : p.suggestionLevel ≠ SuggestionLevel.all
    · rw [if_pos ⟨hex, hlev⟩, if_pos hex] at hx
      exact ⟨input, 0, List.mem_singleton.mp hx⟩
    · rw [if_neg (fun hq => hlev hq.2)] at hx
      by_cases hed : p.editDistance = 0
      · rw [if_pos hed, if_pos hex] at hx
        exact ⟨input, 0, List.mem_singleton.mp hx⟩
      · rw [if_neg hed] at hx
        have hx2 := hsort _ _ hx
        rcases mem_lookupLoop_results st p dead input _ _ _ _ x hx2 with h3 | h3
        · rw [if_pos hex] at h3
          exact ⟨input, 0, List.mem_singleton.mp h3⟩
        · exact h3
  · rw [if_neg (fun hq => hex hq.1)] at hx
    by_cases hed : p.editDistance = 0
    · rw [if_pos hed, if_neg hex] at hx
      simp at hx
    · rw [if_neg hed] at hx
      have hx2 := hsort _ _ hx
      rcases mem_lookupLoop_results st p dead input _ _ _ _ x hx2 with h3 | h3
      · rw [if_neg hex] at h3
        simp at h3
      · exact h3

/-! ## Membership behaviour of the default sort -/

theorem mem_insertSorted (a : Suggestion) :
    ∀ (l : List Suggestion) (x : Suggestion),
      x ∈ insertSorted a l ↔ x = a ∨ x ∈ l := by
  intro l
  induction l with
  | nil => intro x; simp [insertSorted]
  | cons b t ih =>
    intro x
    rw [insertSorted]
    by_cases h : suggestionLess a b = true
    · rw [if_pos h]
      simp only [List.mem_cons]
      try tauto
    · rw [if_neg h]
      simp only [List.mem_cons, ih]
      try tauto

theorem defaultSortFunc_mem :
    ∀ (l : List Suggestion) (x : Suggestion),
      x ∈ defaultSortFunc l ↔ x ∈ l := by
  intro l
  induction l with
  | nil => intro x; exact Iff.rfl
  | cons b t ih =>
    intro x
    rw [defaultSortFunc, List.foldr_cons, mem_insertSorted]
    rw [defaultSortFunc] at ih
    rw [ih, List.mem_cons]
    try tauto

/-! ## Results are only appended under `LevelAll` -/

theorem all_incorporate_preserve (st : SpellState) (p : LookupParams)
    (hall : p.suggestionLevel = SuggestionLevel.all) (rstr : Word) (dist : Int)
    (is : InnerState) (x : Suggestion) (hx : x ∈ is.results) :
    x ∈ (incorporate st p rstr dist is).results := by
  rw [incorporate]
  by_cases h1 : dist ≤ is.editDistance
  · rw [if_pos h1]
    cases hres : is.results with
    | nil => rw [hres] at hx; simp at hx
    | cons first rest =>
      rw [hall]
      exact List.mem_append.mpr (Or.inl (hres ▸ hx))
  · rw [if_neg h1]
    exact hx

theorem all_processSuggestion_preserve (st : SpellState) (p : LookupParams)
    (hall : p.suggestionLevel = SuggestionLevel.all) (input : Word)
    (inputLen inputPrefixLen : Int) (candidate : Word) (candidateLen : Int)
    (is : InnerState) (r : DeleteEntry) (x : Suggestion) (hx : x ∈ is.results) :
    x ∈ (processSuggestion st p input inputLen inputPrefixLen candidate
      candidateLen is r).results := by
  rw [processSuggestion]
  try dsimp only
  split_ifs <;>
    first
      | exact hx
      | exact all_incorporate_preserve st p hall _ _ _ x hx

theorem all_foldl_preserve (st : SpellState) (p : LookupParams)
    (hall : p.suggestionLevel = SuggestionLevel.all) (input : Word)
    (inputLen inputPrefixLen : Int) (candidate : Word) (candidateLen : Int) :
    ∀ (bucket : List DeleteEntry) (is : InnerState) (x : Suggestion),
      x ∈ is.results →
      x ∈ (bucket.foldl (processSuggestion st p input inputLen inputPrefixLen
        candidate candidateLen) is).results := by
  intro bucket
  induction bucket with
  | nil => intro is x hx; exact hx
  | cons r t ih =>
    intro is x hx
    rw [List.foldl_cons]
    exact ih _ x (all_processSuggestion_preserve st p hall _ _ _ _ _ _ _ x hx)

theorem all_lookupLoop_preserve (st : SpellState) (p : LookupParams)
    (hall : p.suggestionLevel = SuggestionLevel.all) (dead : Bool) (input : Word)
    (inputLen inputPrefixLen : Int) :
    ∀ (fuel : Nat) (ls : LoopState) (x : Suggestion),
      x ∈ ls.results →
      x ∈ lookupLoop st p dead input inputLen inputPrefixLen fuel ls := by
  intro fuel
  induction fuel with
  | zero => intro ls x hx; exact hx
  | succ n ih =>
    intro ls x hx
    rw [lookupLoop]
    cases hc : ls.candidates[ls.idx]? with
    | none => exact hx
    | some candidate =>
      dsimp only
      by_cases h1 : inputPrefixLen - (candidate.length : Int) > ls.editDistance
      · rw [if_pos h1, if_pos hall]
        exact ih _ x hx
      · rw [if_neg h1]
        apply ih
        have hmid : x ∈ (((dictDeletesLoad st p.dictName
            (getStringHash candidate)).getD []).foldl
            (processSuggestion st p input inputLen inputPrefixLen candidate
              (candidate.length : Int))
            (⟨ls.consideredSuggestions, ls.results, ls.editDistance⟩ :
              InnerState)).results :=
          all_foldl_preserve st p hall input inputLen inputPrefixLen candidate
            (candidate.length : Int) _ _ x hx
        try dsimp only
        split_ifs <;> exact hmid

/-! ## The segmenter

`Segment` scores compositions with `float64` log-probabilities.  Floating
point is not modelled; instead the probability type and its operations
(`math.Log10`-based scoring, addition, comparison) are parameters, so every
theorem about the segmenter holds for every interpretation of the
floating-point arithmetic.  The error/panic behaviour of `Segment` does not
depend on them. -/

/-- The floating-point operations `Segment` performs on probabilities. -/
structure ProbOps (P : Type) where
  /-- the Go zero value `0.0` -/
  zero : P
  /-- `math.Log10(float64(freq) / cumulativeFreq)` -/
  logFreq : Nat → Nat → P
  /-- `math.Log10(10.0 / (cumulativeFreq * math.Pow(10.0, float64(len))))` -/
  logUnknown : Nat → Nat → P
  /-- float addition -/
  add : P → P → P
  /-- float `<` -/
  lt : P → P → Bool

/-- Go's local `composition` struct. -/
structure Composition (P : Type) where
  segmentedString : Word
  correctedString : Word
  distanceSum : Int
  probability : P

/-- Result of `Segment`: the two error returns, a Go runtime panic from
out-of-range slice indexing, or a result (distance plus
`(input, word, entry)` segments). -/
inductive SegmentOutcome where
  | errLongestZero
  | errCumulativeZero
  | indexPanic
  | ok (distance : Int) (segments : List (Word × Word × Option Entry))
  deriving DecidableEq

/-- Go `unicode.Is(unicode.White_Space, rune(part[0]))`: `part[0]` is the
first byte of the UTF-8 string, converted to a rune.  The bytes in
`White_Space` below `0x100` are TAB, LF, VT, FF, CR, SPACE, NEL and NBSP. -/
def whiteSpaceByte (b : Nat) : Bool :=
  b = 0x09 ∨ b = 0x0A ∨ b = 0x0B ∨ b = 0x0C ∨ b = 0x0D ∨ b = 0x20 ∨
    b = 0x85 ∨ b = 0xA0

/-- Go `strings.Split(s, " ")`. -/
def splitSpace : Word → List Word
  | [] => [[]]
  | c :: t =>
    if c = ' ' then [] :: splitSpace t
    else
      match splitSpace t with
      | h :: r => (c :: h) :: r
      | [] => [[c]]

/-- Body of the inner `for j := 1; j <= jMax; j++` loop of `Segment`. -/
def segmentStep {P : Type} (ops : ProbOps P) (st : SpellState)
    (lp : LookupParams) (input : Word) (longestWord arraySize : Nat)
    (circularIdx : Int) (comps : List (Composition P)) (i j : Nat) :
    List (Composition P) :=
  let part0 := substring input (i : Int) ((i : Int) + (j : Int))
  -- part0 is nonempty whenever this loop body runs (i < |input|, j ≥ 1),
  -- so taking the head byte models Go's `part[0]` without a panic case
  let firstB := (wordBytes part0).headD 0
  let (part1, separatorLength) :=
    if whiteSpaceByte firstB then
      (substring input ((i : Int) + 1) ((i : Int) + (j : Int)), (0 : Int))
    else (part0, 1)
  let topEd0 : Int := part1.length
  let part := part1.filter (fun c => c != ' ')
  let topEd1 : Int := topEd0 - (part.length : Int)
  let suggestions := lookup st part lp
  let (topResult, topEd, topProbabilityLog) :=
    match suggestions with
    | s0 :: _ =>
      (s0.entry.word, topEd1 + s0.distance,
        ops.logFreq s0.entry.frequency st.cumulativeFreq)
    | [] =>
      (part, topEd1 + (part.length : Int), ops.logUnknown st.cumulativeFreq part.length)
  let destinationIdx := (((j : Int) + circularIdx) % (arraySize : Int)).toNat
  let defaultComp : Composition P := ⟨[], [], 0, ops.zero⟩
  if i = 0 then
    comps.set destinationIdx ⟨part, topResult, topEd, topProbabilityLog⟩
  else
    let src := (comps[circularIdx.toNat]?).getD defaultComp
    let dstC := (comps[destinationIdx]?).getD defaultComp
    let cond := j = longestWord ∨
      ((src.distanceSum + topEd = dstC.distanceSum ∨
          src.distanceSum + separatorLength + topEd = dstC.distanceSum) ∧
        ops.lt dstC.probability (ops.add src.probability topProbabilityLog)) ∨
      src.distanceSum + separatorLength + topEd < dstC.distanceSum
    if cond then
      comps.set destinationIdx ⟨src.segmentedString ++ [' '] ++ part,
        src.correctedString ++ [' '] ++ topResult,
        src.distanceSum + separatorLength + topEd,
        ops.add src.probability topProbabilityLog⟩
    else comps

/-- The final `for i, word := range correctedWords` loop of `Segment`:
`segmentedWords[i]` is a panicking index. -/
def buildSegments (st : SpellState) (segmentedWords : List Word) :
    Nat → List Word → Option (List (Word × Word × Option Entry))
  | _, [] => some []
  | i, w :: t =>
    match segmentedWords[i]? with
    | none => none
    | some sw =>
      (buildSegments st segmentedWords (i + 1) t).map
        (fun r => (sw, w, getEntry st w defaultDict) :: r)

/-- Go `Segment` (with resolved lookup options `lp`). -/
def segmentGo {P : Type} (ops : ProbOps P) (st : SpellState) (lp : LookupParams)
    (input : Word) : SegmentOutcome :=
  let longestWord := st.longestWord
  if longestWord = 0 then SegmentOutcome.errLongestZero
  else if st.cumulativeFreq = 0 then SegmentOutcome.errCumulativeZero
  else
    let inputLen := input.length
    let arraySize := min inputLen longestWord
    let defaultComp : Composition P := ⟨[], [], 0, ops.zero⟩
    let final := (List.range inputLen).foldl
      (fun (acc : List (Composition P) × Int) i =>
        let jMax := min (inputLen - i) longestWord
        let comps' := (List.range jMax).foldl
          (fun comps j' =>
            segmentStep ops st lp input longestWord arraySize acc.2 comps i (j' + 1))
          acc.1
        let ci' := acc.2 + 1
        (comps', if ci' = (arraySize : Int) then 0 else ci'))
      (List.replicate arraySize defaultComp, (-1 : Int))
    if final.2 < 0 then SegmentOutcome.indexPanic
    else
      match final.1[final.2.toNat]? with
      | none => SegmentOutcome.indexPanic
      | some comp =>
        let segmentedWords := splitSpace comp.segmentedString
        let correctedWords := splitSpace comp.correctedString
        match buildSegments st segmentedWords 0 correctedWords with
        | none => SegmentOutcome.indexPanic
        | some segs => SegmentOutcome.ok comp.distanceSum segs

/-! ## Association-list and state-projection lemmas -/

theorem alGet_alPut_self {α β : Type} [DecidableEq α] (l : List (α × β)) (k : α)
    (v : β) : alGet (alPut l k v) k = some v := by
  induction l with
  | nil => simp [alPut, alGet]
  | cons a t ih =>
    by_cases h : a.1 = k
    · simp [alPut, h, alGet]
    · simp [alPut, h, alGet, ih]

theorem alGet_alPut_ne {α β : Type} [DecidableEq α] (l : List (α × β)) (k : α)
    (v : β) (k' : α) (h : k ≠ k') : alGet (alPut l k v) k' = alGet l k' := by
  induction l with
  | nil => simp [alPut, alGet, h]
  | cons a t ih =>
    by_cases h2 : a.1 = k
    · simp [alPut, h2, alGet, h]
    · simp only [alPut, h2, if_false, alGet]
      by_cases h3 : a.1 = k'
      · simp [h3]
      · simp [h3, ih]

theorem alGet_mem {α β : Type} [DecidableEq α] (l : List (α × β)) (k : α)
    (v : β) (h : alGet l k = some v) : (k, v) ∈ l := by
  induction l with
  | nil => simp [alGet] at h
  | cons a t ih =>
    obtain ⟨a1, a2⟩ := a
    by_cases h2 : a1 = k
    · simp only [alGet, h2, if_true, Option.some.injEq] at h
      subst h2
      subst h
      exact List.mem_cons_self _ _
    · simp only [alGet, h2, if_false] at h
      exact List.mem_cons_of_mem _ (ih h)

/-- `dictDeletesAdd` only touches the delete index. -/
theorem dictDeletesAdd_fields (st : SpellState) (d : String) (k : Nat)
    (r : DeleteEntry) :
    (dictDeletesAdd st d k r).library = st.library ∧
      (dictDeletesAdd st d k r).cumulativeFreq = st.cumulativeFreq ∧
      (dictDeletesAdd st d k r).longestWord = st.longestWord := by
  exact ⟨rfl, rfl, rfl⟩

theorem foldl_dictDeletesAdd_fields (d : String) (r : DeleteEntry) :
    ∀ (ds : List Nat) (st : SpellState),
      (ds.foldl (fun acc h => dictDeletesAdd acc d h r) st).library = st.library ∧
      (ds.foldl (fun acc h => dictDeletesAdd acc d h r) st).cumulativeFreq =
        st.cumulativeFreq ∧
      (ds.foldl (fun acc h => dictDeletesAdd acc d h r) st).longestWord =
        st.longestWord := by
  intro ds
  induction ds with
  | nil => intro st; exact ⟨rfl, rfl, rfl⟩
  | cons h t ih =>
    intro st
    simpa [List.foldl_cons] using ih (dictDeletesAdd st d h r)

/-- The library after `addEntry` (both branches store the new entry). -/
theorem addEntry_library (st : SpellState) (e : Entry) (d : String) :
    (addEntry st e d).2.library =
      alPut st.library d (alPut ((alGet st.library d).getD []) e.word e) := by
  rw [addEntry]
  dsimp only
  split_ifs <;>
    simp [libraryStore, (foldl_dictDeletesAdd_fields _ _ _ _).1]

/-- `libraryLoad` ignores the non-library fields. -/
theorem libraryLoad_cum (st : SpellState) (c : Nat) (d : String) (w : Word) :
    libraryLoad { st with cumulativeFreq := c } d w = libraryLoad st d w := rfl

/-- Lookup of an entry after `addEntry`. -/
theorem libraryLoad_addEntry (st : SpellState) (e : Entry) (d d' : String)
    (w : Word) :
    libraryLoad (addEntry st e d).2 d' w =
      if d' = d ∧ w = e.word then some e else libraryLoad st d' w := by
  have hlib := addEntry_library st e d
  rw [libraryLoad, hlib]
  by_cases h1 : d' = d
  · subst h1
    rw [alGet_alPut_self]
    by_cases h2 : w = e.word
    · subst h2
      simp [alGet_alPut_self]
    · have h3 : e.word ≠ w := fun hh => h2 hh.symm
      simp only [h2, and_false, if_false, Option.some_bind]
      rw [alGet_alPut_ne _ _ _ _ h3, libraryLoad]
      cases h4 : alGet st.library d' with
      | none => simp [h4, alGet]
      | some m => simp [h4]
  · have h5 : d ≠ d' := fun hh => h1 hh.symm
    rw [alGet_alPut_ne _ _ _ _ h5]
    simp only [h1, false_and, if_false, libraryLoad]

/-- The cumulative frequency after `addEntry`: the new frequency is added
and, when the word already exists, the (new, not old) frequency is
subtracted again via `^(de.Frequency-1)`. -/
theorem addEntry_cumFreq (st : SpellState) (e : Entry) (d : String) :
    (addEntry st e d).2.cumulativeFreq =
      if (libraryLoad st d e.word).isSome then
        ((st.cumulativeFreq + e.frequency) % 2 ^ 64 +
          (2 ^ 64 - e.frequency % 2 ^ 64) % 2 ^ 64) % 2 ^ 64
      else (st.cumulativeFreq + e.frequency) % 2 ^ 64 := by
  rw [addEntry]
  dsimp only
  by_cases h1 : (libraryLoad st d e.word).isSome = true
  · rw [if_pos (by simpa [libraryLoad_cum] using h1), if_pos h1]
    simp [libraryStore]
  · rw [if_neg (by simpa [libraryLoad_cum] using h1), if_neg h1]
    dsimp only
    split_ifs <;> simp [libraryStore, (foldl_dictDeletesAdd_fields _ _ _ _).2.1]

/-- The longest-word counter after `addEntry` (not updated on overwrite;
lengths are truncated to `uint32`). -/
theorem addEntry_longestWord (st : SpellState) (e : Entry) (d : String) :
    (addEntry st e d).2.longestWord =
      if (libraryLoad st d e.word).isSome then st.longestWord
      else if e.word.length % 2 ^ 32 > st.longestWord then e.word.length % 2 ^ 32
      else st.longestWord := by
  rw [addEntry]
  dsimp only
  by_cases h1 : (libraryLoad st d e.word).isSome = true
  · rw [if_pos (by simpa [libraryLoad_cum] using h1), if_pos h1]
    simp [libraryStore]
  · rw [if_neg (by simpa [libraryLoad_cum] using h1), if_neg h1]
    dsimp only
    simp only [libraryStore]
    split_ifs with h2 h3 <;>
      simp [(foldl_dictDeletesAdd_fields _ _ _ _).2.2]

/-- `removeEntry` only touches the library. -/
theorem removeEntry_fields (st : SpellState) (w : Word) (d : String) :
    (removeEntry st w d).2.cumulativeFreq = st.cumulativeFreq ∧
      (removeEntry st w d).2.longestWord = st.longestWord := by
  rw [removeEntry, libraryRemove]
  cases alGet st.library d with
  | none => exact ⟨rfl, rfl⟩
  | some m =>
    dsimp only
    split_ifs <;> exact ⟨rfl, rfl⟩

/-! ## C1: cumulative frequency under overwriting `AddEntry` -/

def entryA5 : Entry := ⟨5, ['a'], none⟩

def entryA7 : Entry := ⟨7, ['a'], none⟩

def stC1first : SpellState := (addEntry newSpell entryA5 defaultDict).2

def stC1 : Bool × SpellState := addEntry stC1first entryA7 defaultDict

/-- C1, counterexample: adding `{word: "a", frequency: 5}` and then
`{word: "a", frequency: 7}` returns `added = false` and stores the second
entry, but `cumulative_frequency` stays `5`: the code adds the new frequency
`7` and then subtracts the same `7` (`^(de.Frequency-1)` negates
`de.Frequency`, the new frequency, not the old one), so it does not change
by `f' − f = 2` as claimed. -/
theorem c1_overwrite_cumfreq_cex :
    stC1.1 = false ∧
      libraryLoad stC1.2 defaultDict ['a'] = some entryA7 ∧
      stC1first.cumulativeFreq = 5 ∧
      stC1.2.cumulativeFreq = 5 ∧
      stC1.2.cumulativeFreq ≠ (stC1first.cumulativeFreq + (7 - 5)) % 2 ^ 64 := by
  refine ⟨by decide, by decide, by decide, by decide, by decide⟩

/-- All entries added from the default dictionary path, starting from a
fresh speller. -/
def addSeq (es : List Entry) : SpellState :=
  es.foldl (fun st e => (addEntry st e defaultDict).2) newSpell

/-- Sum of the frequencies carried by the first addition of each distinct
word in the sequence (later overwrites contribute nothing). -/
def firstAddFreqSum : List Entry → List Word → Nat
  | [], _ => 0
  | e :: t, seen =>
    if e.word ∈ seen then firstAddFreqSum t seen
    else e.frequency + firstAddFreqSum t (e.word :: seen)

theorem addSeq_cum_aux :
    ∀ (es : List Entry) (st : SpellState) (seen : List Word),
      st.cumulativeFreq < 2 ^ 64 →
      (∀ w, (libraryLoad st defaultDict w).isSome = true ↔ w ∈ seen) →
      (es.foldl (fun st e => (addEntry st e defaultDict).2) st).cumulativeFreq =
        (st.cumulativeFreq + firstAddFreqSum es seen) % 2 ^ 64 := by
  intro es
  induction es with
  | nil =>
    intro st seen hlt _
    simp only [List.foldl_nil, firstAddFreqSum]
    omega
  | cons e t ih =>
    intro st seen hlt hinv
    simp only [List.foldl_cons, firstAddFreqSum]
    by_cases hmem : e.word ∈ seen
    · have hsome : (libraryLoad st defaultDict e.word).isSome = true :=
        (hinv e.word).mpr hmem
      have hcum : (addEntry st e defaultDict).2.cumulativeFreq = st.cumulativeFreq := by
        rw [addEntry_cumFreq]
        simp only [hsome, if_true]
        omega
      have hinv' : ∀ w,
          (libraryLoad (addEntry st e defaultDict).2 defaultDict w).isSome = true ↔
            w ∈ seen := by
        intro w
        rw [libraryLoad_addEntry]
        by_cases hw : w = e.word
        · simp [hw, hmem]
        · simp only [hw, and_false, if_false]
          exact hinv w
      rw [ih _ seen (by omega) hinv', hcum, if_pos hmem]
    · have hnone : ¬((libraryLoad st defaultDict e.word).isSome = true) := by
        intro hx
        exact hmem ((hinv e.word).mp hx)
      have hcum : (addEntry st e defaultDict).2.cumulativeFreq =
          (st.cumulativeFreq + e.frequency) % 2 ^ 64 := by
        rw [addEntry_cumFreq]
        simp [hnone]
      have hinv' : ∀ w,
          (libraryLoad (addEntry st e defaultDict).2 defaultDict w).isSome = true ↔
            w ∈ e.word :: seen := by
        intro w
        rw [libraryLoad_addEntry]
        by_cases hw : w = e.word
        · simp [hw]
        · simp only [hw, and_false, if_false, List.mem_cons, hw, false_or]
          exact hinv w
      rw [ih _ (e.word :: seen) (by omega) hinv', hcum, if_neg hmem]
      omega

/-- C1, amended: the second `add_entry` of an existing word returns
`added = false` and stores the second entry, but `cumulative_frequency` is
unchanged by the overwriting call (the code adds and then subtracts the
*new* frequency, so the change is `0`, not `f' − f`); consequently, after
any add-only sequence, `cumulative_frequency` equals the wrapped sum of
each word's frequency at its *first* insertion, not the sum of the
currently stored frequencies. -/
theorem c1_overwrite_cumfreq_amended :
    (∀ (st : SpellState) (e : Entry) (d : String),
        (libraryLoad st d e.word).isSome = true →
        st.cumulativeFreq < 2 ^ 64 →
        (addEntry st e d).1 = false ∧
          libraryLoad (addEntry st e d).2 d e.word = some e ∧
          (addEntry st e d).2.cumulativeFreq = st.cumulativeFreq) ∧
      ∀ es : List Entry,
        (addSeq es).cumulativeFreq = firstAddFreqSum es [] % 2 ^ 64 := by
  constructor
  · intro st e d hsome hlt
    refine ⟨?_, ?_, ?_⟩
    · rw [addEntry]
      dsimp only
      rw [if_pos (by simpa [libraryLoad_cum] using hsome)]
    · rw [libraryLoad_addEntry]
      simp
    · rw [addEntry_cumFreq]
      simp only [hsome, if_true]
      omega
  · intro es
    have h0 : (newSpell.cumulativeFreq : Nat) < 2 ^ 64 := by decide
    have hinv : ∀ w, (libraryLoad newSpell defaultDict w).isSome = true ↔
        (w ∈ ([] : List Word)) := by
      intro w
      simp [libraryLoad, newSpell, alGet]
    rw [addSeq, addSeq_cum_aux es newSpell [] h0 hinv]
    simp [newSpell]

/-- C1 witness: the amended overwrite facts at the concrete two-add
scenario. -/
theorem c1_overwrite_cumfreq_amended_witness :
    (addEntry stC1first entryA7 defaultDict).1 = false ∧
      libraryLoad (addEntry stC1first entryA7 defaultDict).2 defaultDict
        entryA7.word = some entryA7 ∧
      (addEntry stC1first entryA7 defaultDict).2.cumulativeFreq =
        stC1first.cumulativeFreq :=
  c1_overwrite_cumfreq_amended.1 stC1first entryA7 defaultDict (by decide) (by decide)

/-! ## C6: the longest-word counter -/

/-- States reachable through the mutating speller operations. -/
inductive Reachable : SpellState → Prop where
  | new : Reachable newSpell
  | add (st : SpellState) (e : Entry) (d : String) :
      Reachable st → Reachable (addEntry st e d).2
  | remove (st : SpellState) (w : Word) (d : String) :
      Reachable st → Reachable (removeEntry st w d).2

theorem alPut_mem {α β : Type} [DecidableEq α] (l : List (α × β)) (k : α) (v : β)
    (a : α × β) (h : a ∈ alPut l k v) : a ∈ l ∨ a = (k, v) := by
  induction l with
  | nil =>
    simp only [alPut, List.mem_singleton] at h
    exact Or.inr h
  | cons p t ih =>
    by_cases h2 : p.1 = k
    · simp only [alPut, h2, if_true, List.mem_cons] at h
      rcases h with h | h
      · exact Or.inr h
      · exact Or.inl (List.mem_cons_of_mem _ h)
    · simp only [alPut, h2, if_false, List.mem_cons] at h
      rcases h with h | h
      · exact Or.inl (h ▸ List.mem_cons_self _ _)
      · rcases ih h with h3 | h3
        · exact Or.inl (List.mem_cons_of_mem _ h3)
        · exact Or.inr h3

theorem alRemove_mem {α β : Type} [DecidableEq α] (l : List (α × β)) (k : α)
    (a : α × β) (h : a ∈ alRemove l k) : a ∈ l := by
  induction l with
  | nil => simpa [alRemove] using h
  | cons p t ih =>
    by_cases h2 : p.1 = k
    · simp only [alRemove, h2, if_true] at h
      exact List.mem_cons_of_mem _ h
    · simp only [alRemove, h2, if_false, List.mem_cons] at h
      rcases h with h | h
      · exact h ▸ List.mem_cons_self _ _
      · exact List.mem_cons_of_mem _ (ih h)

/-- The invariant maintained for C6: every stored word key is, after the
`uint32` truncation the code applies, bounded by `longestWord`. -/
def LongestInv (st : SpellState) : Prop :=
  ∀ p ∈ st.library, ∀ q ∈ p.2, q.1.length % 2 ^ 32 ≤ st.longestWord

theorem reachable_longestInv (st : SpellState) (h : Reachable st) : LongestInv st := by
  induction h with
  | new =>
    intro p hp
    simp [newSpell] at hp
  | add st e d hr ih =>
    intro p hp q hq
    rw [addEntry_longestWord]
    have hlib := addEntry_library st e d
    rw [hlib] at hp
    rcases alPut_mem _ _ _ _ hp with hp1 | hp1
    · have hb := ih p hp1 q hq
      split_ifs <;> omega
    · subst hp1
      rcases alPut_mem _ _ _ _ hq with hq1 | hq1
      · cases h4 : alGet st.library d with
        | none => simp [h4, alGet] at hq1
        | some m =>
          simp only [h4, Option.getD_some] at hq1
          have hb := ih (d, m) (alGet_mem _ _ _ h4) q hq1
          split_ifs <;> omega
      · subst hq1
        dsimp only
        by_cases h5 : (libraryLoad st d e.word).isSome = true
        · rw [if_pos h5]
          rw [libraryLoad] at h5
          cases h6 : alGet st.library d with
          | none => rw [h6] at h5; simp at h5
          | some m =>
            rw [h6, Option.some_bind] at h5
            cases h7 : alGet m e.word with
            | none => rw [h7] at h5; simp at h5
            | some e0 =>
              exact ih (d, m) (alGet_mem _ _ _ h6) (e.word, e0) (alGet_mem _ _ _ h7)
        · rw [if_neg h5]
          split_ifs <;> omega
  | remove st w d hr ih =>
    intro p hp q hq
    rw [(removeEntry_fields st w d).2]
    rw [removeEntry, libraryRemove] at hp
    cases h4 : alGet st.library d with
    | none =>
      rw [h4] at hp
      exact ih p hp q hq
    | some m =>
      rw [h4] at hp
      dsimp only at hp
      by_cases h5 : (alGet m w).isSome = true
      · rw [if_pos h5] at hp
        simp only at hp
        rcases alPut_mem _ _ _ _ hp with hp1 | hp1
        · exact ih p hp1 q hq
        · subst hp1
          exact ih (d, m) (alGet_mem _ _ _ h4) q (alRemove_mem _ _ _ hq)
      · rw [if_neg h5] at hp
        exact ih p hp q hq

def bigWord : Word := List.replicate (2 ^ 32) 'a'

def stC6 : SpellState := (addEntry newSpell ⟨1, bigWord, none⟩ defaultDict).2

/-- C6, counterexample: a word of exactly `2^32` code points is stored, yet
`GetLongestWord` reports `0`: the Go code records
`uint32(len([]rune(word)))`, which truncates the length modulo `2^32`, so
`longest_word_length ≥ code_point_count(w)` fails for this reachable
state. -/
theorem c6_longest_word_cex :
    Reachable stC6 ∧
      libraryLoad stC6 defaultDict bigWord = some ⟨1, bigWord, none⟩ ∧
      getLongestWord stC6 = 0 ∧
      bigWord.length = 2 ^ 32 := by
  refine ⟨Reachable.add _ _ _ Reachable.new, ?_, ?_,
    by rw [bigWord]; exact List.length_replicate _ _⟩
  · rw [stC6, libraryLoad_addEntry, if_pos ⟨rfl, rfl⟩]
  · rw [stC6, getLongestWord, addEntry_longestWord]
    have h1 : libraryLoad newSpell defaultDict bigWord = none := rfl
    rw [h1]
    rw [if_neg (by exact Bool.false_ne_true)]
    have h2 : (Entry.mk 1 bigWord none).word.length % 2 ^ 32 = 0 := by
      rw [show (Entry.mk 1 bigWord none).word = bigWord from rfl, bigWord,
        List.length_replicate, Nat.mod_self]
    rw [h2]
    have h3 : newSpell.longestWord = 0 := rfl
    rw [h3, if_neg (lt_irrefl 0)]

/-- C6, amended: for every reachable speller state, `GetLongestWord` bounds
`code_point_count(w) mod 2^32` (the `uint32`-truncated length the code
records) for every stored word `w` — equivalently `code_point_count(w)`
itself for words shorter than `2^32` code points — and it is non-decreasing
across every `AddEntry` and `RemoveEntry`. -/
theorem c6_longest_word_amended :
    (∀ st : SpellState, Reachable st → ∀ (d : String) (w : Word) (e : Entry),
        libraryLoad st d w = some e → w.length % 2 ^ 32 ≤ getLongestWord st) ∧
      (∀ (st : SpellState) (e : Entry) (d : String),
        getLongestWord st ≤ getLongestWord (addEntry st e d).2) ∧
      (∀ (st : SpellState) (w : Word) (d : String),
        getLongestWord st ≤ getLongestWord (removeEntry st w d).2) := by
  refine ⟨?_, ?_, ?_⟩
  · intro st hr d w e hload
    rw [libraryLoad] at hload
    cases h4 : alGet st.library d with
    | none => rw [h4] at hload; simp at hload
    | some m =>
      rw [h4, Option.some_bind] at hload
      exact reachable_longestInv st hr (d, m) (alGet_mem _ _ _ h4) (w, e)
        (alGet_mem _ _ _ hload)
  · intro st e d
    rw [getLongestWord, getLongestWord, addEntry_longestWord]
    split_ifs <;> omega
  · intro st w d
    rw [getLongestWord, getLongestWord, (removeEntry_fields st w d).2]

/-- C6 witness: the amended bound at a concrete reachable state. -/
theorem c6_longest_word_amended_witness :
    (['a'] : Word).length % 2 ^ 32 ≤ getLongestWord stC1first :=
  c6_longest_word_amended.1 stC1first (Reachable.add _ _ _ Reachable.new)
    defaultDict ['a'] entryA5 (by decide)

/-! ## C3: the delete-set generator -/

/-- Follows the claim's words (C3): the hashes of every distinct string
produced by recursively deleting one code point at a time from the prefix
up to total deletion depth `E` (a node is expanded only while its depth is
below `E`), where a hash already in the working set is not re-expanded; on
this reading a word of length ≤ 1 still has its single deletion (the empty
string) generated.  `fuel` only bounds the structural recursion and is
initialised above the maximal recursion depth. -/
def specGenDeletes (E : Nat) : Nat → Word → Nat → List Nat → List Nat
  | 0, _, _, ds => ds
  | fuel + 1, word, depth, ds =>
    if depth < E then
      (List.range word.length).foldl
        (fun ds' (i : Nat) =>
          let dw := removeChar word (i : Int)
          let h := getStringHash dw
          if h ∈ ds' then ds'
          else specGenDeletes E fuel dw (depth + 1) (ds' ++ [h]))
        ds
    else ds

/-- The delete set described by C3, literally. -/
def specDeletesOf (E P : Nat) (word : Word) : List Nat :=
  let pw := if word.length > P then substring word 0 (P : Int) else word
  specGenDeletes E (pw.length + 1) pw 0 [getStringHash pw]

/-- C3's description amended to match the code: a node is expanded only when
its word has length > 1 (so the empty string is never produced — a word of
length ≤ 1 yields only the hash of its prefix), and depth is bounded by
`max E 1` (depth-1 deletions are generated even when `MaxEditDistance = 0`). -/
def specAmendedGenDeletes (E : Nat) : Nat → Word → Nat → List Nat → List Nat
  | 0, _, _, ds => ds
  | fuel + 1, word, depth, ds =>
    if word.length > 1 ∧ depth < max E 1 then
      (List.range word.length).foldl
        (fun ds' (i : Nat) =>
          let dw := removeChar word (i : Int)
          let h := getStringHash dw
          if h ∈ ds' then ds'
          else specAmendedGenDeletes E fuel dw (depth + 1) (ds' ++ [h]))
        ds
    else ds

/-- The amended delete set for C3. -/
def specDeletesAmendedOf (E P : Nat) (word : Word) : List Nat :=
  let pw := if word.length > P then substring word 0 (P : Int) else word
  specAmendedGenDeletes E pw.length pw 0 [getStringHash pw]

theorem specAmendedGen_noexpand (E fuel : Nat) (w : Word) (depth : Nat)
    (ds : List Nat) (h : ¬depth < max E 1) :
    specAmendedGenDeletes E fuel w depth ds = ds := by
  cases fuel with
  | zero => rfl
  | succ n =>
    rw [specAmendedGenDeletes, if_neg]
    rintro ⟨-, h2⟩
    exact h h2

/-- The code's generator agrees with the amended description at every node
whose depth is below `max E 1` (in particular at the root, depth 0). -/
theorem generateDeletes_eq_amended (E : Nat) :
    ∀ (fuel : Nat) (word : Word) (depth : Nat) (ds : List Nat),
      depth < max E 1 →
      generateDeletes E fuel word depth ds =
        specAmendedGenDeletes E fuel word depth ds := by
  intro fuel
  induction fuel with
  | zero => intro word depth ds _; rfl
  | succ n ih =>
    intro word depth ds hdep
    rw [generateDeletes, specAmendedGenDeletes]
    by_cases hlen : word.length > 1
    · rw [if_pos hlen, if_pos ⟨hlen, hdep⟩]
      refine List.foldl_ext _ _ ds (fun ds' i _ => ?_)
      dsimp only
      by_cases hmem : getStringHash (removeChar word (i : Int)) ∈ ds'
      · rw [if_pos hmem, if_pos hmem]
      · rw [if_neg hmem, if_neg hmem]
        by_cases hrec : depth + 1 < E
        · rw [if_pos hrec, ih _ _ _ (by omega)]
        · rw [if_neg hrec,
            specAmendedGen_noexpand E n _ (depth + 1) _ (by omega)]
    · rw [if_neg hlen, if_neg (by rintro ⟨h1, -⟩; exact hlen h1)]

/-- C3, counterexample: with the default `MaxEditDistance = 2`,
`PrefixLength = 7`, the claim's set for the word `"a"` contains the hash of
the empty string (the single deletion from a length-1 word), but the code's
`getDeletes` does not: `generateDeletes` never deletes from words of length
≤ 1. -/
theorem c3_deletes_cex :
    getStringHash [] ∈ specDeletesOf 2 7 ['a'] ∧
      getStringHash [] ∉ getDeletes newSpell ['a'] ∧
      newSpell.maxEditDistance = 2 ∧ newSpell.prefixLength = 7 := by
  refine ⟨by decide, by decide, rfl, rfl⟩

/-- C3, amended: for every word and parameters, `getDeletes` produces
exactly the hash of `prefix(w, P)` together with the hashes of the distinct
strings obtained by recursively deleting one code point at a time from that
prefix, where a node is expanded only while its string is longer than one
code point (so words of length ≤ 1 yield only their own hash and the empty
string is never generated) and only to deletion depth `max(E, 1)` (depth-1
deletes are produced even when `E = 0`); a hash already in the working set
is not re-expanded. -/
theorem c3_deletes_amended (st : SpellState) (word : Word) :
    getDeletes st word =
      specDeletesAmendedOf st.maxEditDistance st.prefixLength word := by
  rw [getDeletes, specDeletesAmendedOf]
  exact generateDeletes_eq_amended _ _ _ 0 _ (by omega)

/-! ## C7: behaviour of `substring` -/

/-- C7, counterexample: the claim states that `substring` returns the empty
string whenever the interval `[start, end)` is empty, but
`substring("abc", 2, 1)` returns `"a"`: the loop reaches `i == end` before
`i == start` and slices from the never-assigned `startStrIdx = 0`. -/
theorem c7_substring_empty_interval_cex :
    substring ['a', 'b', 'c'] 2 1 = ['a'] ∧
      substring ['a', 'b', 'c'] 2 1 ≠ [] := by
  constructor <;> decide

/-- C7, amended: `substring(s, start, end)` returns the code-point span
`[start, end)` when `0 ≤ start ≤ end < count`; the empty string when
`start ≥ count`; the span through the end of `s` when `end ≥ count` or
`end < 0` (with a negative `start` treated as `0`); and when
`0 ≤ end < start < count` it returns the prefix `[0, end)` rather than the
empty string.  Boundaries are measured in code points. -/
theorem c7_substring_amended (s : Word) (start e : Int) :
    substring s start e =
      if (s.length : Int) ≤ start then []
      else if 0 ≤ e ∧ e < (s.length : Int) then
        if 0 ≤ start ∧ start ≤ e then (s.take e.toNat).drop start.toNat
        else s.take e.toNat
      else s.drop (if 0 ≤ start then start.toNat else 0) := by
  rw [substring_spec]
  by_cases h1 : (s.length : Int) ≤ start
  · simp [h1]
  · simp only [h1, if_false]
    by_cases h2 : 0 ≤ e ∧ e < (s.length : Int)
    · simp only [h2, if_true]
      by_cases h3 : 0 ≤ start ∧ start ≤ e
      · simp [h3]
      · simp [h3]
    · simp [h2]

/-! ## C4: the exact-match phase of `Lookup` -/

def wordAbc : Word := ['a', 'b', 'c']

def wordAbd : Word := ['a', 'b', 'd']

def stAbc : SpellState := (addEntry newSpell ⟨1, wordAbc, none⟩ defaultDict).2

/-- C4: (i) when the input is stored and the suggestion level is not `All`,
`Lookup` returns exactly the one exact-match suggestion with distance 0;
(ii) with `edit_distance = 0`, `Lookup` returns only the exact match (or
nothing); (iii) under `LevelAll` the exact match is still among the results
(for a sort function that keeps elements); (iv) for an inserted entry,
`Lookup` of its word with the default options returns that single
suggestion with distance 0. -/
theorem c4_exact_match :
    (∀ (st : SpellState) (input : Word) (p : LookupParams) (e : Entry),
        libraryLoad st p.dictName input = some e →
        p.suggestionLevel ≠ SuggestionLevel.all →
        lookup st input p = [⟨0, e⟩]) ∧
      (∀ (st : SpellState) (input : Word) (p : LookupParams),
        p.editDistance = 0 →
        lookup st input p =
          (libraryLoad st p.dictName input).elim [] (fun e => [⟨0, e⟩])) ∧
      (∀ (st : SpellState) (input : Word) (p : LookupParams) (e : Entry),
        libraryLoad st p.dictName input = some e →
        p.suggestionLevel = SuggestionLevel.all →
        (∀ (l : List Suggestion) (x : Suggestion), x ∈ l → x ∈ p.sortFunc l) →
        (⟨0, e⟩ : Suggestion) ∈ lookup st input p) ∧
      ∀ (st : SpellState) (de : Entry),
        lookup (addEntry st de defaultDict).2 de.word
          (defaultLookupParams (addEntry st de defaultDict).2) = [⟨0, de⟩] := by
  have hpart1 : ∀ (st : SpellState) (input : Word) (p : LookupParams) (e : Entry),
      libraryLoad st p.dictName input = some e →
      p.suggestionLevel ≠ SuggestionLevel.all →
      lookup st input p = [⟨0, e⟩] := by
    intro st input p e hl hlev
    rw [lookup, lookupWith]
    try dsimp only
    have hsome : (libraryLoad st p.dictName input).isSome = true := by
      rw [hl]; rfl
    rw [if_pos ⟨hsome, hlev⟩, if_pos hsome, newDictSuggestion, hl]
    rfl
  refine ⟨hpart1, ?_, ?_, ?_⟩
  · intro st input p hed
    rw [lookup, lookupWith]
    try dsimp only
    by_cases hex : (libraryLoad st p.dictName input).isSome = true
    · obtain ⟨e, hl⟩ := Option.isSome_iff_exists.mp hex
      by_cases hlev : p.suggestionLevel ≠ SuggestionLevel.all
      · rw [if_pos ⟨hex, hlev⟩, if_pos hex, newDictSuggestion, hl]
        rfl
      · rw [if_neg (fun hq => hlev hq.2), if_pos hed, if_pos hex,
          newDictSuggestion, hl]
        rfl
    · rw [if_neg (fun hq => hex hq.1), if_pos hed, if_neg hex]
      have hl : libraryLoad st p.dictName input = none :=
        Option.not_isSome_iff_eq_none.mp (fun hq => hex hq)
      rw [hl]
      rfl
  · intro st input p e hl hall hsort
    rw [lookup, lookupWith]
    try dsimp only
    have hsome : (libraryLoad st p.dictName input).isSome = true := by
      rw [hl]; rfl
    rw [if_neg (by rintro ⟨-, hq⟩; exact hq hall)]
    by_cases hed : p.editDistance = 0
    · rw [if_pos hed, if_pos hsome, newDictSuggestion, hl]
      exact List.mem_singleton.mpr rfl
    · rw [if_neg hed]
      try dsimp only
      apply hsort
      apply all_lookupLoop_preserve st p hall
      have hmem : (⟨0, e⟩ : Suggestion) ∈
          (if (libraryLoad st p.dictName input).isSome = true then
            [newDictSuggestion st p.dictName input 0] else []) := by
        rw [if_pos hsome, newDictSuggestion, hl]
        exact List.mem_singleton.mpr rfl
      exact hmem
  · intro st de
    apply hpart1
    · rw [libraryLoad_addEntry]
      exact if_pos ⟨rfl, rfl⟩
    · intro hq
      exact SuggestionLevel.noConfusion hq

/-- C4 witness: looking up an inserted word with default options. -/
theorem c4_exact_match_witness :
    lookup stAbc wordAbc (defaultLookupParams stAbc) =
      [⟨0, ⟨1, wordAbc, none⟩⟩] :=
  c4_exact_match.1 stAbc wordAbc (defaultLookupParams stAbc) ⟨1, wordAbc, none⟩
    (by decide) (by decide)

/-! ## C10: suggestions are not re-validated against the library -/

def stC10 : SpellState :=
  (removeEntry (addEntry newSpell ⟨1, wordAbc, none⟩ defaultDict).2 wordAbc
    defaultDict).2

/-- C10: every suggestion `Lookup` emits carries, as its `Entry`, either the
library's current entry for some stored word or (when the suggested word is
no longer stored) the zero `Entry` — `Lookup` never filters or re-validates;
and concretely, after `"abc"` is removed, `Lookup("abx")` follows the stale
delete-index records and returns a suggestion carrying the zero `Entry`
(empty word, zero frequency, nil metadata). -/
theorem c10_stale_suggestion_entries :
    (∀ (st : SpellState) (input : Word) (p : LookupParams),
        (∀ (l : List Suggestion) (y : Suggestion), y ∈ p.sortFunc l → y ∈ l) →
        ∀ x ∈ lookup st input p,
          x.entry = zeroEntry ∨
            ∃ w, libraryLoad st p.dictName w = some x.entry) ∧
      (removeEntry (addEntry newSpell ⟨1, wordAbc, none⟩ defaultDict).2 wordAbc
        defaultDict).1 = true ∧
      lookup stC10 ['a', 'b', 'x'] (defaultLookupParams stC10) =
        [⟨1, zeroEntry⟩] := by
  refine ⟨?_, by decide, by decide⟩
  intro st input p hsort x hx
  obtain ⟨s, d, hxe⟩ := mem_lookup_shape st input p true hsort x hx
  rw [hxe, newDictSuggestion]
  cases hl : libraryLoad st p.dictName s with
  | none => exact Or.inl rfl
  | some e => exact Or.inr ⟨s, by rw [hl]; rfl⟩

/-- C10 witness: the returned stale suggestion's entry is covered by the
shape property. -/
theorem c10_stale_suggestion_entries_witness :
    (⟨1, zeroEntry⟩ : Suggestion).entry = zeroEntry ∨
      ∃ w, libraryLoad stC10 (defaultLookupParams stC10).dictName w =
        some (⟨1, zeroEntry⟩ : Suggestion).entry :=
  c10_stale_suggestion_entries.1 stC10 ['a', 'b', 'x']
    (defaultLookupParams stC10)
    (fun l y hy => (defaultSortFunc_mem l y).mp hy)
    ⟨1, zeroEntry⟩ (by decide)

/-! ## C5: removed words do not reappear as suggestions -/

/-- Well-formedness of the library: every stored entry is keyed by its own
word, and the per-dictionary association lists have no duplicate keys.  All
states built through `AddEntry`/`RemoveEntry` satisfy this; the predicate is
decidable so concrete instances can be checked by `decide`. -/
@[reducible]
def LibraryWF (st : SpellState) : Prop :=
  ∀ p ∈ st.library, (∀ q ∈ p.2, q.2.word = q.1) ∧ (p.2.map Prod.fst).Nodup

theorem alGet_eq_none {α β : Type} [DecidableEq α] (l : List (α × β)) (k : α)
    (h : k ∉ l.map Prod.fst) : alGet l k = none := by
  induction l with
  | nil => rfl
  | cons p t ih =>
    simp only [List.map_cons, List.mem_cons] at h
    push_neg at h
    rw [alGet, if_neg (fun hq => h.1 hq.symm)]
    exact ih h.2

theorem alRemove_sublist {α β : Type} [DecidableEq α] (l : List (α × β))
    (k : α) : (alRemove l k).Sublist l := by
  induction l with
  | nil => exact List.Sublist.refl _
  | cons p t ih =>
    rw [alRemove]
    by_cases h : p.1 = k
    · rw [if_pos h]
      exact List.sublist_cons_self _ _
    · rw [if_neg h]
      exact ih.cons₂ p

theorem alGet_alRemove_self {β : Type} (m : List (Word × β)) (w : Word)
    (hnd : (m.map Prod.fst).Nodup) : alGet (alRemove m w) w = none := by
  induction m with
  | nil => rfl
  | cons p t ih =>
    simp only [List.map_cons, List.nodup_cons] at hnd
    rw [alRemove]
    by_cases h : p.1 = w
    · rw [if_pos h]
      exact alGet_eq_none t w (h ▸ hnd.1)
    · rw [if_neg h, alGet, if_neg h]
      exact ih hnd.2

/-- When a removal succeeds, the state is the original one with the word's
pair removed from its dictionary. -/
theorem removeEntry_true_shape (st : SpellState) (w : Word) (d : String)
    (hr : (removeEntry st w d).1 = true) :
    ∃ m, alGet st.library d = some m ∧ (alGet m w).isSome = true ∧
      (removeEntry st w d).2 =
        { st with library := alPut st.library d (alRemove m w) } := by
  rw [removeEntry, libraryRemove] at hr
  cases h4 : alGet st.library d with
  | none => rw [h4] at hr; simp at hr
  | some m =>
    rw [h4] at hr
    dsimp only at hr
    by_cases h5 : (alGet m w).isSome = true
    · refine ⟨m, rfl, h5, ?_⟩
      rw [removeEntry, libraryRemove, h4]
      dsimp only
      rw [if_pos h5]
    · rw [if_neg h5] at hr
      simp at hr

/-- When a removal does not succeed, the state is unchanged. -/
theorem removeEntry_false_shape (st : SpellState) (w : Word) (d : String)
    (hr : ¬(removeEntry st w d).1 = true) : (removeEntry st w d).2 = st := by
  rw [removeEntry, libraryRemove] at hr ⊢
  cases h4 : alGet st.library d with
  | none => rfl
  | some m =>
    rw [h4] at hr
    dsimp only at hr ⊢
    by_cases h5 : (alGet m w).isSome = true
    · rw [if_pos h5] at hr
      simp at hr
    · rw [if_neg h5]

theorem removeEntry_true_load_none (st : SpellState) (w : Word) (d : String)
    (hwf : LibraryWF st) (hr : (removeEntry st w d).1 = true) :
    libraryLoad (removeEntry st w d).2 d w = none := by
  obtain ⟨m, h4, h5, hshape⟩ := removeEntry_true_shape st w d hr
  rw [hshape, libraryLoad]
  dsimp only
  rw [alGet_alPut_self, Option.some_bind]
  exact alGet_alRemove_self m w (hwf (d, m) (alGet_mem _ _ _ h4)).2

theorem removeEntry_wf (st : SpellState) (w : Word) (d : String)
    (hwf : LibraryWF st) : LibraryWF (removeEntry st w d).2 := by
  by_cases hr : (removeEntry st w d).1 = true
  · obtain ⟨m, h4, h5, hshape⟩ := removeEntry_true_shape st w d hr
    rw [hshape]
    intro p hp
    rcases alPut_mem _ _ _ _ hp with hp1 | hp1
    · exact hwf p hp1
    · subst hp1
      have hm := hwf (d, m) (alGet_mem _ _ _ h4)
      constructor
      · intro q hq
        exact hm.1 q (alRemove_mem _ _ _ hq)
      · exact hm.2.sublist ((alRemove_sublist m w).map Prod.fst)
  · rw [removeEntry_false_shape st w d hr]
    exact hwf

theorem libraryLoad_word (st : SpellState) (d : String) (w : Word) (e : Entry)
    (hwf : LibraryWF st) (h : libraryLoad st d w = some e) : e.word = w := by
  rw [libraryLoad] at h
  cases h4 : alGet st.library d with
  | none => rw [h4] at h; simp at h
  | some m =>
    rw [h4, Option.some_bind] at h
    exact (hwf (d, m) (alGet_mem _ _ _ h4)).1 (w, e) (alGet_mem _ _ _ h)

/-- The colliding two-code-point word: its FNV-1a hash equals the hash of
the empty string (`2166136261`). -/
def w2C5 : Word := [Char.ofNat 0xD8, Char.ofNat 0xD0EDD]

def stC5a : SpellState :=
  (addEntry (addEntry newSpell ⟨1, [], none⟩ defaultDict).2 ⟨1, w2C5, none⟩
    defaultDict).2

def stC5b : SpellState := (removeEntry stC5a w2C5 defaultDict).2

def stC5 : SpellState := (removeEntry stC5b [] defaultDict).2

/-- C5, counterexample: for the empty word the claim fails.  Add the empty
word and a two-code-point word whose hash collides with `hash("")`, remove
both (both removals succeed), then `lookup("")` follows the stale colliding
delete-index record and returns a suggestion whose attached zero `Entry`
has word `""` — a suggestion whose word equals the removed word. -/
theorem c5_removed_word_cex :
    (removeEntry stC5b ([] : Word) defaultDict).1 = true ∧
      (⟨2, zeroEntry⟩ : Suggestion) ∈ lookup stC5 [] (defaultLookupParams stC5) ∧
      (⟨2, zeroEntry⟩ : Suggestion).entry.word = ([] : Word) ∧
      getStringHash w2C5 = getStringHash [] := by
  refine ⟨by decide, by decide, rfl, by decide⟩

/-- C5, amended: after `remove_entry(w)` succeeds on a well-formed library,
a `lookup(w)` on the same dictionary contains no suggestion whose word
equals `w`, provided `w` is non-empty (for the empty word, stale
delete-index records of other removed words surface zero entries whose
`Word` is the empty string, as the counterexample shows). -/
theorem c5_removed_word_absent_amended :
    ∀ (st : SpellState) (w : Word) (p : LookupParams),
      LibraryWF st → w ≠ ([] : Word) →
      (∀ (l : List Suggestion) (y : Suggestion), y ∈ p.sortFunc l → y ∈ l) →
      (removeEntry st w p.dictName).1 = true →
      ∀ x ∈ lookup (removeEntry st w p.dictName).2 w p, x.entry.word ≠ w := by
  intro st w p hwf hw hsort hrem x hx hword
  have hwf' := removeEntry_wf st w p.dictName hwf
  have hnone := removeEntry_true_load_none st w p.dictName hwf hrem
  obtain ⟨s, dd, hxe⟩ := mem_lookup_shape _ w p true hsort x hx
  rw [hxe, newDictSuggestion] at hword
  cases hl : libraryLoad (removeEntry st w p.dictName).2 p.dictName s with
  | none =>
    rw [hl] at hword
    exact hw hword.symm
  | some e2 =>
    rw [hl] at hword
    simp only [Option.getD_some] at hword
    have hws := libraryLoad_word _ _ _ _ hwf' hl
    rw [hws] at hword
    rw [hword, hnone] at hl
    exact Option.noConfusion hl

def stC5w : SpellState :=
  (addEntry (addEntry newSpell ⟨1, wordAbc, none⟩ defaultDict).2
    ⟨1, wordAbd, none⟩ defaultDict).2

/-- C5 witness: after removing `"abc"` from a two-word dictionary, the
suggestion that `lookup("abc")` returns (the nearby word `"abd"`) does not
have word `"abc"`. -/
theorem c5_removed_word_absent_amended_witness :
    (⟨1, ⟨1, wordAbd, none⟩⟩ : Suggestion).entry.word ≠ wordAbc :=
  c5_removed_word_absent_amended stC5w wordAbc (defaultLookupParams newSpell)
    (by decide) (by decide)
    (fun l y hy => (defaultSortFunc_mem l y).mp hy)
    (by decide) ⟨1, ⟨1, wordAbd, none⟩⟩ (by decide)

/-! ## C2: distance lemmas

Facts about the modelled Damerau–Levenshtein distance needed for the
one-edit recall property: with sufficient fuel the distance is `0` exactly
on equal words, and a single deletion, insertion or substitution is at
distance at most `1`. -/

theorem dlAux_nil_left (fuel : Nat) (ys : Word) :
    damerauLevenshteinAux (fuel + 1) [] ys = ys.length := by
  cases ys <;> rfl

theorem dlAux_nil_right (fuel : Nat) (xs : Word) :
    damerauLevenshteinAux (fuel + 1) xs [] = xs.length := by
  cases xs <;> rfl

theorem dlAux_cons_le_sub (fuel : Nat) (x y : Char) (xs ys : Word) :
    damerauLevenshteinAux (fuel + 1) (x :: xs) (y :: ys) ≤
      damerauLevenshteinAux fuel xs ys + (if x = y then 0 else 1) := by
  cases xs <;> cases ys <;> rw [damerauLevenshteinAux] <;>
    first
      | (intro a b c d h1 h2
         first
           | exact List.noConfusion h1
           | exact List.noConfusion h2)
      | (split_ifs <;> omega)

theorem dlAux_cons_le_del (fuel : Nat) (x y : Char) (xs ys : Word) :
    damerauLevenshteinAux (fuel + 1) (x :: xs) (y :: ys) ≤
      damerauLevenshteinAux fuel xs (y :: ys) + 1 := by
  cases xs <;> cases ys <;> rw [damerauLevenshteinAux] <;>
    first
      | (intro a b c d h1 h2
         first
           | exact List.noConfusion h1
           | exact List.noConfusion h2)
      | (split_ifs <;> omega)

theorem dlAux_cons_le_ins (fuel : Nat) (x y : Char) (xs ys : Word) :
    damerauLevenshteinAux (fuel + 1) (x :: xs) (y :: ys) ≤
      damerauLevenshteinAux fuel (x :: xs) ys + 1 := by
  cases xs <;> cases ys <;> rw [damerauLevenshteinAux] <;>
    first
      | (intro a b c d h1 h2
         first
           | exact List.noConfusion h1
           | exact List.noConfusion h2)
      | (split_ifs <;> omega)

theorem dlAux_cons_eq_zero (fuel : Nat) (x y : Char) (xs ys : Word)
    (h : damerauLevenshteinAux (fuel + 1) (x :: xs) (y :: ys) = 0) :
    x = y ∧ damerauLevenshteinAux fuel xs ys = 0 := by
  by_cases hxy : x = y
  · refine ⟨hxy, ?_⟩
    cases xs <;> cases ys <;> rw [damerauLevenshteinAux] at h <;>
      first
        | (intro a b c d h1 h2
           first
             | exact List.noConfusion h1
             | exact List.noConfusion h2)
        | (rw [if_pos hxy] at h; (try split_ifs at h) <;> omega)
  · exfalso
    cases xs <;> cases ys <;> rw [damerauLevenshteinAux] at h <;>
      first
        | (intro a b c d h1 h2
           first
             | exact List.noConfusion h1
             | exact List.noConfusion h2)
        | (rw [if_neg hxy] at h; (try split_ifs at h) <;> omega)

theorem dlAux_self (xs : Word) :
    ∀ fuel, 2 * xs.length < fuel → damerauLevenshteinAux fuel xs xs = 0 := by
  induction xs with
  | nil =>
    intro fuel hf
    cases fuel with
    | zero => omega
    | succ n => exact dlAux_nil_left n []
  | cons x t ih =>
    intro fuel hf
    cases fuel with
    | zero => omega
    | succ n =>
      have h1 := dlAux_cons_le_sub n x x t t
      rw [if_pos rfl, ih n (by simp at hf ⊢; omega)] at h1
      omega

theorem dlAux_eq_zero_eq (fuel : Nat) :
    ∀ (xs ys : Word), damerauLevenshteinAux fuel xs ys = 0 → xs = ys := by
  induction fuel with
  | zero =>
    intro xs ys h
    rw [damerauLevenshteinAux] at h
    rw [List.length_eq_zero.mp (by omega : xs.length = 0),
      List.length_eq_zero.mp (by omega : ys.length = 0)]
  | succ n ih =>
    intro xs ys h
    cases xs with
    | nil =>
      rw [dlAux_nil_left] at h
      rw [List.length_eq_zero.mp h]
    | cons x xs' =>
      cases ys with
      | nil =>
        rw [dlAux_nil_right] at h
        simp at h
      | cons y ys' =>
        obtain ⟨hxy, hsub⟩ := dlAux_cons_eq_zero n x y xs' ys' h
        rw [hxy, ih xs' ys' hsub]

/-- A single deletion is at distance at most 1 (in either direction we only
need the deleted-to-original direction). -/
theorem dlAux_delete_le (i : Nat) :
    ∀ (w : Word) (fuel : Nat), i < w.length → 2 * w.length ≤ fuel →
      damerauLevenshteinAux fuel (w.take i ++ w.drop (i + 1)) w ≤ 1 := by
  induction i with
  | zero =>
    intro w fuel hi hf
    cases w with
    | nil => simp at hi
    | cons x xs =>
      simp only [List.take_zero, List.drop_succ_cons, List.nil_append,
        List.drop_zero]
      cases fuel with
      | zero => omega
      | succ n =>
        cases xs with
        | nil =>
          rw [dlAux_nil_left]
          simp
        | cons y ys =>
          have h1 := dlAux_cons_le_ins n y x ys (y :: ys)
          have h2 : damerauLevenshteinAux n (y :: ys) (y :: ys) = 0 := by
            apply dlAux_self
            simp at hf ⊢
            omega
          omega
  | succ j ih =>
    intro w fuel hi hf
    cases w with
    | nil => simp at hi
    | cons x xs =>
      simp only [List.take_succ_cons, List.drop_succ_cons, List.cons_append]
      cases fuel with
      | zero => omega
      | succ n =>
        have h1 := dlAux_cons_le_sub n x x (xs.take j ++ xs.drop (j + 1)) xs
        rw [if_pos rfl, Nat.add_zero] at h1
        have h2 := ih xs n (by simp at hi; omega) (by simp at hf; omega)
        omega

/-- A single insertion is at distance at most 1. -/
theorem dlAux_insert_le (i : Nat) :
    ∀ (w : Word) (c : Char) (fuel : Nat), 2 * w.length + 1 < fuel →
      damerauLevenshteinAux fuel (w.take i ++ c :: w.drop i) w ≤ 1 := by
  induction i with
  | zero =>
    intro w c fuel hf
    simp only [List.take_zero, List.drop_zero, List.nil_append]
    cases fuel with
    | zero => omega
    | succ n =>
      cases w with
      | nil =>
        rw [dlAux_nil_right]
        simp
      | cons y ys =>
        have h1 := dlAux_cons_le_del n c y (y :: ys) ys
        have h2 : damerauLevenshteinAux n (y :: ys) (y :: ys) = 0 := by
          apply dlAux_self
          simp at hf ⊢
          omega
        omega
  | succ j ih =>
    intro w c fuel hf
    cases w with
    | nil =>
      simp only [List.take_nil, List.drop_nil, List.nil_append]
      cases fuel with
      | zero => omega
      | succ n =>
        rw [dlAux_nil_right]
        simp
    | cons x xs =>
      simp only [List.take_succ_cons, List.drop_succ_cons, List.cons_append]
      cases fuel with
      | zero => omega
      | succ n =>
        have h1 := dlAux_cons_le_sub n x x (xs.take j ++ c :: xs.drop j) xs
        rw [if_pos rfl, Nat.add_zero] at h1
        have h2 := ih xs c n (by simp at hf; omega)
        omega

/-- A single substitution is at distance at most 1. -/
theorem dlAux_subst_le (i : Nat) :
    ∀ (w : Word) (c : Char) (fuel : Nat), i < w.length → 2 * w.length < fuel →
      damerauLevenshteinAux fuel (w.take i ++ c :: w.drop (i + 1)) w ≤ 1 := by
  induction i with
  | zero =>
    intro w c fuel hi hf
    cases w with
    | nil => simp at hi
    | cons x xs =>
      simp only [List.take_zero, List.drop_succ_cons, List.nil_append,
        List.drop_zero]
      cases fuel with
      | zero => omega
      | succ n =>
        have h1 := dlAux_cons_le_sub n c x xs xs
        have h2 : damerauLevenshteinAux n xs xs = 0 := by
          apply dlAux_self
          simp at hf ⊢
          omega
        split_ifs at h1 <;> omega
  | succ j ih =>
    intro w c fuel hi hf
    cases w with
    | nil => simp at hi
    | cons x xs =>
      simp only [List.take_succ_cons, List.drop_succ_cons, List.cons_append]
      cases fuel with
      | zero => omega
      | succ n =>
        have h1 := dlAux_cons_le_sub n x x (xs.take j ++ c :: xs.drop (j + 1)) xs
        rw [if_pos rfl, Nat.add_zero] at h1
        have h2 := ih xs c n (by simp at hi; omega) (by simp at hf; omega)
        omega

/-- One code-point deletion, insertion or substitution (the claim's relation;
substitution may be trivial, in which case the words are equal). -/
def OneEdit (w w' : Word) : Prop :=
  (∃ i < w.length, w' = w.take i ++ w.drop (i + 1)) ∨
    (∃ i ≤ w.length, ∃ c, w' = w.take i ++ c :: w.drop i) ∨
    (∃ i < w.length, ∃ c, w' = w.take i ++ c :: w.drop (i + 1))

/-- A non-trivial one-edit pair is at the modelled distance exactly 1. -/
theorem oneEdit_dl_eq_one (w w' : Word) (h : OneEdit w w') (hne : w' ≠ w) :
    damerauLevenshtein w' w = 1 := by
  have hle : damerauLevenshtein w' w ≤ 1 := by
    rw [damerauLevenshtein]
    rcases h with ⟨i, hi, he⟩ | ⟨i, hi, c, he⟩ | ⟨i, hi, c, he⟩
    · subst he
      apply dlAux_delete_le i w _ hi
      simp only [List.length_append, List.length_take, List.length_drop]
      omega
    · subst he
      apply dlAux_insert_le i w c
      simp only [List.length_append, List.length_take, List.length_cons,
        List.length_drop]
      omega
    · subst he
      apply dlAux_subst_le i w c _ hi
      simp only [List.length_append, List.length_take, List.length_cons,
        List.length_drop]
      omega
  have hpos : damerauLevenshtein w' w ≠ 0 := by
    intro h0
    exact hne (dlAux_eq_zero_eq _ w' w h0)
  omega

/-! ## C2: delete-index membership

Which hashes end up in `getDeletes`, and the exact shape of the delete
index built by a single `AddEntry` on a fresh speller. -/

theorem foldl_mem_preserve {α β : Type} (f : α → β → α) (P : α → Prop)
    (hstep : ∀ acc i, P acc → P (f acc i)) :
    ∀ (l : List β) (acc : α), P acc → P (l.foldl f acc) := by
  intro l
  induction l with
  | nil => intro acc h; exact h
  | cons x t ih => intro acc h; exact ih _ (hstep acc x h)

/-- The generator only ever appends hashes: the seed set survives. -/
theorem generateDeletes_mono (E : Nat) :
    ∀ (fuel : Nat) (word : Word) (depth : Nat) (ds : List Nat) (x : Nat),
      x ∈ ds → x ∈ generateDeletes E fuel word depth ds := by
  intro fuel
  induction fuel with
  | zero => intro word depth ds x hx; exact hx
  | succ n ih =>
    intro word depth ds x hx
    rw [generateDeletes]
    by_cases hlen : word.length > 1
    · rw [if_pos hlen]
      refine foldl_mem_preserve _ (fun ds' => x ∈ ds') ?_ _ ds hx
      intro acc i hacc
      dsimp only
      by_cases h1 : getStringHash (removeChar word (i : Int)) ∈ acc
      · rw [if_pos h1]; exact hacc
      · rw [if_neg h1]
        by_cases h2 : depth + 1 < E
        · rw [if_pos h2]; exact ih _ _ _ x (List.mem_append_left _ hacc)
        · rw [if_neg h2]; exact List.mem_append_left _ hacc
    · rw [if_neg hlen]; exact hx

/-- A fold whose step is monotone and establishes `g i` at index `i`
contains `g j` for every processed `j`. -/
theorem foldl_adds_mem {α : Type} (f : List α → Nat → List α) (g : Nat → α)
    (hmono : ∀ ds i x, x ∈ ds → x ∈ f ds i)
    (hadd : ∀ ds i, g i ∈ f ds i) :
    ∀ (l : List Nat) (ds : List α) (j : Nat), j ∈ l → g j ∈ l.foldl f ds := by
  intro l
  induction l with
  | nil => intro ds j hj; cases hj
  | cons x t ih =>
    intro ds j hj
    rcases List.mem_cons.mp hj with h | h
    · subst h
      exact foldl_mem_preserve f (fun ds' => g j ∈ ds')
        (fun acc i h => hmono acc i _ h) t _ (hadd ds j)
    · exact ih _ j h

/-- One level of expansion: for an expanded word every single-delete hash is
in the generator's output. -/
theorem generateDeletes_depth1 (E : Nat) (word : Word) (j : Nat)
    (hj : j < word.length) (hlen : word.length > 1) (fuel depth : Nat)
    (ds : List Nat) :
    getStringHash (removeChar word (j : Int)) ∈
      generateDeletes E (fuel + 1) word depth ds := by
  rw [generateDeletes, if_pos hlen]
  refine foldl_adds_mem _ (fun i => getStringHash (removeChar word (i : Int)))
    ?_ ?_ _ ds j (List.mem_range.mpr hj)
  · intro acc i x hx
    dsimp only
    by_cases h1 : getStringHash (removeChar word (i : Int)) ∈ acc
    · rw [if_pos h1]; exact hx
    · rw [if_neg h1]
      by_cases h2 : depth + 1 < E
      · rw [if_pos h2]
        exact generateDeletes_mono E fuel _ _ _ x (List.mem_append_left _ hx)
      · rw [if_neg h2]; exact List.mem_append_left _ hx
  · intro acc i
    dsimp only
    by_cases h1 : getStringHash (removeChar word (i : Int)) ∈ acc
    · rw [if_pos h1]; exact h1
    · rw [if_neg h1]
      by_cases h2 : depth + 1 < E
      · rw [if_pos h2]
        exact generateDeletes_mono E fuel _ _ _ _
          (List.mem_append_right _ (List.mem_singleton.mpr rfl))
      · rw [if_neg h2]
        exact List.mem_append_right _ (List.mem_singleton.mpr rfl)

/-- The generator preserves freedom from duplicates (it models the Go
`map[uint32]bool` set). -/
theorem generateDeletes_nodup (E : Nat) :
    ∀ (fuel : Nat) (word : Word) (depth : Nat) (ds : List Nat),
      ds.Nodup → (generateDeletes E fuel word depth ds).Nodup := by
  intro fuel
  induction fuel with
  | zero => intro word depth ds h; exact h
  | succ n ih =>
    intro word depth ds h
    rw [generateDeletes]
    by_cases hlen : word.length > 1
    · rw [if_pos hlen]
      refine foldl_mem_preserve _ (fun ds' => ds'.Nodup) ?_ _ ds h
      intro acc i hacc
      dsimp only
      by_cases h1 : getStringHash (removeChar word (i : Int)) ∈ acc
      · rw [if_pos h1]; exact hacc
      · rw [if_neg h1]
        have happ : (acc ++ [getStringHash (removeChar word (i : Int))]).Nodup := by
          rw [List.nodup_append]
          exact ⟨hacc, List.nodup_singleton _,
            fun a ha hb => h1 (by rwa [List.mem_singleton.mp hb] at ha)⟩
        by_cases h2 : depth + 1 < E
        · rw [if_pos h2]; exact ih _ _ _ happ
        · rw [if_neg h2]; exact happ
    · rw [if_neg hlen]; exact h

/-- The prefix used by `getDeletes` is a `take`. -/
theorem getDeletes_prefix_take (st : SpellState) (word : Word) :
    (if word.length > st.prefixLength then
        substring word 0 (st.prefixLength : Int)
      else word) = word.take st.prefixLength := by
  by_cases h : word.length > st.prefixLength
  · rw [if_pos h]
    have := substring_nat word 0 st.prefixLength (by omega) (by omega)
    simpa using this
  · rw [if_neg h, List.take_of_length_le (by omega)]

/-- `getDeletes` only reads the two option fields. -/
theorem getDeletes_params (st st' : SpellState) (word : Word)
    (h1 : st.maxEditDistance = st'.maxEditDistance)
    (h2 : st.prefixLength = st'.prefixLength) :
    getDeletes st word = getDeletes st' word := by
  rw [getDeletes, getDeletes, h1, h2]

/-- The hash of the truncated word is always in its delete set. -/
theorem getDeletes_mem_prefix (st : SpellState) (word : Word) :
    getStringHash (word.take st.prefixLength) ∈ getDeletes st word := by
  rw [getDeletes]
  rw [show (if word.length > st.prefixLength then
      substring word 0 (st.prefixLength : Int) else word) =
    word.take st.prefixLength from getDeletes_prefix_take st word]
  exact generateDeletes_mono _ _ _ _ _ _ (List.mem_singleton.mpr rfl)

/-- The hash of every single code-point deletion of the truncated word is in
the delete set, provided the truncated word has at least two code points. -/
theorem getDeletes_mem_delete (st : SpellState) (word : Word) (j : Nat)
    (hj : j < (word.take st.prefixLength).length)
    (h2 : (word.take st.prefixLength).length > 1) :
    getStringHash (removeChar (word.take st.prefixLength) (j : Int)) ∈
      getDeletes st word := by
  rw [getDeletes]
  rw [show (if word.length > st.prefixLength then
      substring word 0 (st.prefixLength : Int) else word) =
    word.take st.prefixLength from getDeletes_prefix_take st word]
  rcases Nat.exists_eq_add_of_lt (by omega :
      0 < (word.take st.prefixLength).length) with ⟨n, hn⟩
  rw [show (word.take st.prefixLength).length = n + 1 by omega]
  exact generateDeletes_depth1 _ _ j hj h2 n 0 _

/-- The delete set is duplicate-free. -/
theorem getDeletes_nodup (st : SpellState) (word : Word) :
    (getDeletes st word).Nodup := by
  rw [getDeletes]
  exact generateDeletes_nodup _ _ _ _ _ (List.nodup_singleton _)

/-- The delete set is never empty. -/
theorem getDeletes_ne_nil (st : SpellState) (word : Word) :
    getDeletes st word ≠ [] := by
  intro h
  have := getDeletes_mem_prefix st word
  rw [h] at this
  cases this

theorem dictDeletesLoad_add_self (st : SpellState) (d : String) (k : Nat)
    (r : DeleteEntry) :
    dictDeletesLoad (dictDeletesAdd st d k r) d k =
      some (((dictDeletesLoad st d k).getD []) ++ [r]) := by
  rw [dictDeletesAdd, dictDeletesLoad, dictDeletesLoad]
  dsimp only
  rw [alGet_alPut_self, Option.some_bind, alGet_alPut_self]
  cases h : alGet st.dictionaryDeletes d with
  | none => rfl
  | some m => rfl

theorem dictDeletesLoad_add_ne (st : SpellState) (d : String) (k k' : Nat)
    (r : DeleteEntry) (h : k ≠ k') :
    dictDeletesLoad (dictDeletesAdd st d k r) d k' = dictDeletesLoad st d k' := by
  rw [dictDeletesAdd, dictDeletesLoad, dictDeletesLoad]
  dsimp only
  rw [alGet_alPut_self, Option.some_bind, alGet_alPut_ne _ _ _ _ h]
  cases hm : alGet st.dictionaryDeletes d with
  | none => rfl
  | some m => rfl

/-- Folding `dictionaryDeletes.add` of one record over a duplicate-free hash
list: each listed bucket gains the record at its end, the others are
untouched. -/
theorem foldl_dictDeletesAdd_load (d : String) (r : DeleteEntry) :
    ∀ (ds : List Nat) (st0 : SpellState) (k : Nat), ds.Nodup →
      dictDeletesLoad (ds.foldl (fun acc h => dictDeletesAdd acc d h r) st0) d k =
        if k ∈ ds then some (((dictDeletesLoad st0 d k).getD []) ++ [r])
        else dictDeletesLoad st0 d k := by
  intro ds
  induction ds with
  | nil => intro st0 k _; rw [List.foldl_nil, if_neg (List.not_mem_nil k)]
  | cons h t ih =>
    intro st0 k hnd
    rw [List.foldl_cons]
    rcases List.nodup_cons.mp hnd with ⟨hht, hnd'⟩
    by_cases hk : k = h
    · subst hk
      rw [ih _ k hnd', if_neg hht, dictDeletesLoad_add_self,
        if_pos (List.mem_cons_self k t)]
    · rw [ih _ k hnd', dictDeletesLoad_add_ne _ _ _ _ _ fun he => hk he.symm]
      by_cases hkt : k ∈ t
      · rw [if_pos hkt, if_pos (List.mem_cons_of_mem _ hkt)]
      · rw [if_neg hkt, if_neg (by
          intro hm
          rcases List.mem_cons.mp hm with hm | hm
          · exact hk hm
          · exact hkt hm)]

/-- The intermediate state of the fresh-insert branch of `AddEntry` (after
the frequency bump, the store, and the longest-word update, before the
delete-index fold). -/
def addFreshMid (st : SpellState) (e : Entry) (d : String) : SpellState :=
  let st2 := libraryStore
    { st with cumulativeFreq := (st.cumulativeFreq + e.frequency) % 2 ^ 64 }
    d e.word e
  if e.word.length % 2 ^ 32 > st2.longestWord then
    { st2 with longestWord := e.word.length % 2 ^ 32 }
  else st2

/-- `AddEntry` of an absent word takes the fresh-insert branch: it succeeds
and folds the delete records over the intermediate state. -/
theorem addEntry_fresh (st : SpellState) (e : Entry) (d : String)
    (hnone : libraryLoad st d e.word = none) :
    addEntry st e d =
      (true, (getDeletes (addFreshMid st e d) e.word).foldl
        (fun acc h => dictDeletesAdd acc d h
          (DeleteEntry.mk e.word.length e.word e.word))
        (addFreshMid st e d)) := by
  rw [addEntry, addFreshMid]
  dsimp only
  rw [show libraryLoad
      { st with cumulativeFreq := (st.cumulativeFreq + e.frequency) % 2 ^ 64 }
      d e.word = none from (libraryLoad_cum st _ d e.word).trans hnone]
  rw [if_neg (by simp)]
  rw [if_pos (List.length_pos_of_ne_nil (getDeletes_ne_nil _ _))]

theorem addFreshMid_proj (st : SpellState) (e : Entry) (d : String) :
    (addFreshMid st e d).dictionaryDeletes = st.dictionaryDeletes ∧
      (addFreshMid st e d).maxEditDistance = st.maxEditDistance ∧
      (addFreshMid st e d).prefixLength = st.prefixLength ∧
      (addFreshMid st e d).library =
        alPut st.library d (alPut ((alGet st.library d).getD []) e.word e) := by
  rw [addFreshMid]
  split_ifs <;> exact ⟨rfl, rfl, rfl, rfl⟩

/-- The complete shape of a fresh speller after a single `AddEntry`:
the call reports success, the library holds exactly the one entry, and the
delete index maps exactly the hashes of `getDeletes` to a one-record bucket
whose record carries the word itself. -/
theorem addEntry_new_shape (e : Entry) (d : String) :
    (addEntry newSpell e d).1 = true ∧
      (addEntry newSpell e d).2.library = [(d, [(e.word, e)])] ∧
      ∀ k, dictDeletesLoad (addEntry newSpell e d).2 d k =
        if k ∈ getDeletes newSpell e.word then
          some [DeleteEntry.mk e.word.length e.word e.word] else none := by
  have hnone : libraryLoad newSpell d e.word = none := rfl
  rw [addEntry_fresh newSpell e d hnone]
  have hds : getDeletes (addFreshMid newSpell e d) e.word =
      getDeletes newSpell e.word :=
    getDeletes_params _ _ _ (addFreshMid_proj newSpell e d).2.1
      (addFreshMid_proj newSpell e d).2.2.1
  refine ⟨rfl, ?_, ?_⟩
  · dsimp only
    rw [(foldl_dictDeletesAdd_fields d _ _ _).1,
      (addFreshMid_proj newSpell e d).2.2.2]
    rfl
  · intro k
    dsimp only
    rw [foldl_dictDeletesAdd_load d _ _ _ k
      (by rw [hds]; exact getDeletes_nodup newSpell e.word), hds]
    have hload0 : dictDeletesLoad (addFreshMid newSpell e d) d k = none := by
      rw [dictDeletesLoad, (addFreshMid_proj newSpell e d).1]
      rfl
    rw [hload0]
    split_ifs <;> rfl

/-! ## C2: the candidate-expansion loop -/

/-- `defaultLookupParams` with the edit distance overridden (the claim's
"`edit_distance` ≥ 1, default options otherwise", on a speller built with
the default `MaxEditDistance = 2`, `PrefixLength = 7`). -/
def c2Params (eps : Nat) : LookupParams :=
  ⟨defaultDict, damerauLevenshteinRunes, eps, 7, defaultSortFunc,
    SuggestionLevel.best⟩

theorem expandFold_extends (c : Word) :
    ∀ (l : List Nat) (acc : List Word × List Word),
      ∃ ex, (l.foldl (fun (acc : List Word × List Word) (i : Nat) =>
        let deleteWord := removeChar c (i : Int)
        if deleteWord ∈ acc.1 then acc
        else (deleteWord :: acc.1, acc.2 ++ [deleteWord])) acc).2 =
          acc.2 ++ ex := by
  intro l
  induction l with
  | nil => intro acc; exact ⟨[], (List.append_nil _).symm⟩
  | cons x t ih =>
    intro acc
    rw [List.foldl_cons]
    by_cases h : removeChar c (x : Int) ∈ acc.1
    · rw [show (let deleteWord := removeChar c (x : Int)
        if deleteWord ∈ acc.1 then acc
        else (deleteWord :: acc.1, acc.2 ++ [deleteWord])) = acc by
          rw [if_pos h]]
      exact ih acc
    · rw [show (let deleteWord := removeChar c (x : Int)
        if deleteWord ∈ acc.1 then acc
        else (deleteWord :: acc.1, acc.2 ++ [deleteWord])) =
          (removeChar c (x : Int) :: acc.1, acc.2 ++ [removeChar c (x : Int)]) by
          rw [if_neg h]]
      rcases ih (removeChar c (x : Int) :: acc.1,
        acc.2 ++ [removeChar c (x : Int)]) with ⟨ex, hex⟩
      exact ⟨[removeChar c (x : Int)] ++ ex, by rw [hex]; simp⟩

theorem expandFold_elems (c : Word) :
    ∀ (l : List Nat) (acc : List Word × List Word) (x : Word),
      x ∈ (l.foldl (fun (acc : List Word × List Word) (i : Nat) =>
        let deleteWord := removeChar c (i : Int)
        if deleteWord ∈ acc.1 then acc
        else (deleteWord :: acc.1, acc.2 ++ [deleteWord])) acc).2 →
      x ∈ acc.2 ∨ ∃ j ∈ l, x = removeChar c (j : Int) := by
  intro l
  induction l with
  | nil => intro acc x hx; exact Or.inl hx
  | cons y t ih =>
    intro acc x hx
    rw [List.foldl_cons] at hx
    by_cases h : removeChar c (y : Int) ∈ acc.1
    · rw [show (let deleteWord := removeChar c (y : Int)
        if deleteWord ∈ acc.1 then acc
        else (deleteWord :: acc.1, acc.2 ++ [deleteWord])) = acc by
          rw [if_pos h]] at hx
      rcases ih acc x hx with h1 | ⟨j, hj, he⟩
      · exact Or.inl h1
      · exact Or.inr ⟨j, List.mem_cons_of_mem _ hj, he⟩
    · rw [show (let deleteWord := removeChar c (y : Int)
        if deleteWord ∈ acc.1 then acc
        else (deleteWord :: acc.1, acc.2 ++ [deleteWord])) =
          (removeChar c (y : Int) :: acc.1, acc.2 ++ [removeChar c (y : Int)]) by
          rw [if_neg h]] at hx
      rcases ih _ x hx with h1 | ⟨j, hj, he⟩
      · rcases List.mem_append.mp h1 with h2 | h2
        · exact Or.inl h2
        · exact Or.inr ⟨y, List.mem_cons_self y t,
            List.mem_singleton.mp h2⟩
      · exact Or.inr ⟨j, List.mem_cons_of_mem _ hj, he⟩

theorem expandFold_inv_mem (c : Word) (s : Word) :
    ∀ (l : List Nat) (acc : List Word × List Word),
      (∀ u ∈ acc.1, u ∈ acc.2) → s ∈ acc.1 →
      s ∈ (l.foldl (fun (acc : List Word × List Word) (i : Nat) =>
        let deleteWord := removeChar c (i : Int)
        if deleteWord ∈ acc.1 then acc
        else (deleteWord :: acc.1, acc.2 ++ [deleteWord])) acc).2 := by
  intro l acc hinv hs
  have hstep : ∀ (a : List Word × List Word) (i : Nat),
      ((∀ u ∈ a.1, u ∈ a.2) ∧ s ∈ a.1) →
      ((∀ u ∈ (let deleteWord := removeChar c (i : Int)
        if deleteWord ∈ a.1 then a
        else (deleteWord :: a.1, a.2 ++ [deleteWord])).1,
        u ∈ (let deleteWord := removeChar c (i : Int)
        if deleteWord ∈ a.1 then a
        else (deleteWord :: a.1, a.2 ++ [deleteWord])).2) ∧
        s ∈ (let deleteWord := removeChar c (i : Int)
        if deleteWord ∈ a.1 then a
        else (deleteWord :: a.1, a.2 ++ [deleteWord])).1) := by
    intro a i ⟨ha1, ha2⟩
    by_cases h : removeChar c (i : Int) ∈ a.1
    · rw [show (let deleteWord := removeChar c (i : Int)
        if deleteWord ∈ a.1 then a
        else (deleteWord :: a.1, a.2 ++ [deleteWord])) = a by rw [if_pos h]]
      exact ⟨ha1, ha2⟩
    · rw [show (let deleteWord := removeChar c (i : Int)
        if deleteWord ∈ a.1 then a
        else (deleteWord :: a.1, a.2 ++ [deleteWord])) =
          (removeChar c (i : Int) :: a.1, a.2 ++ [removeChar c (i : Int)]) by
          rw [if_neg h]]
      refine ⟨?_, List.mem_cons_of_mem _ ha2⟩
      intro u hu
      rcases List.mem_cons.mp hu with hu | hu
      · exact List.mem_append_right _ (by rw [hu]; exact List.mem_singleton.mpr rfl)
      · exact List.mem_append_left _ (ha1 u hu)
  have h := foldl_mem_preserve _
    (fun acc : List Word × List Word => (∀ u ∈ acc.1, u ∈ acc.2) ∧ s ∈ acc.1)
    hstep l acc ⟨hinv, hs⟩
  exact h.1 s h.2

theorem expandFold_mem (c : Word) :
    ∀ (l : List Nat) (acc : List Word × List Word) (j : Nat),
      j ∈ l → (∀ u ∈ acc.1, u ∈ acc.2) →
      removeChar c (j : Int) ∈ (l.foldl (fun (acc : List Word × List Word) (i : Nat) =>
        let deleteWord := removeChar c (i : Int)
        if deleteWord ∈ acc.1 then acc
        else (deleteWord :: acc.1, acc.2 ++ [deleteWord])) acc).2 := by
  intro l
  induction l with
  | nil => intro acc j hj; cases hj
  | cons y t ih =>
    intro acc j hj hinv
    rw [List.foldl_cons]
    have hstep : ∀ (a : List Word × List Word), (∀ u ∈ a.1, u ∈ a.2) →
        (∀ u ∈ (let deleteWord := removeChar c (y : Int)
          if deleteWord ∈ a.1 then a
          else (deleteWord :: a.1, a.2 ++ [deleteWord])).1,
          u ∈ (let deleteWord := removeChar c (y : Int)
          if deleteWord ∈ a.1 then a
          else (deleteWord :: a.1, a.2 ++ [deleteWord])).2) ∧
        removeChar c (y : Int) ∈ (let deleteWord := removeChar c (y : Int)
          if deleteWord ∈ a.1 then a
          else (deleteWord :: a.1, a.2 ++ [deleteWord])).1 := by
      intro a ha
      by_cases h : removeChar c (y : Int) ∈ a.1
      · rw [show (let deleteWord := removeChar c (y : Int)
          if deleteWord ∈ a.1 then a
          else (deleteWord :: a.1, a.2 ++ [deleteWord])) = a by rw [if_pos h]]
        exact ⟨ha, h⟩
      · rw [show (let deleteWord := removeChar c (y : Int)
          if deleteWord ∈ a.1 then a
          else (deleteWord :: a.1, a.2 ++ [deleteWord])) =
            (removeChar c (y : Int) :: a.1, a.2 ++ [removeChar c (y : Int)]) by
            rw [if_neg h]]
        refine ⟨?_, List.mem_cons_self _ _⟩
        intro u hu
        rcases List.mem_cons.mp hu with hu | hu
        · exact List.mem_append_right _
            (by rw [hu]; exact List.mem_singleton.mpr rfl)
        · exact List.mem_append_left _ (ha u hu)
    rcases List.mem_cons.mp hj with hj1 | hj1
    · subst hj1
      exact expandFold_inv_mem c _ t _ (hstep acc hinv).1 (hstep acc hinv).2
    · exact ih _ j hj1 (hstep acc hinv).1

theorem expandFold_len (c : Word) :
    ∀ (l : List Nat) (acc : List Word × List Word),
      ((l.foldl (fun (acc : List Word × List Word) (i : Nat) =>
        let deleteWord := removeChar c (i : Int)
        if deleteWord ∈ acc.1 then acc
        else (deleteWord :: acc.1, acc.2 ++ [deleteWord])) acc).2).length ≤
        acc.2.length + l.length := by
  intro l
  induction l with
  | nil => intro acc; simp
  | cons y t ih =>
    intro acc
    rw [List.foldl_cons]
    by_cases h : removeChar c (y : Int) ∈ acc.1
    · rw [show (let deleteWord := removeChar c (y : Int)
        if deleteWord ∈ acc.1 then acc
        else (deleteWord :: acc.1, acc.2 ++ [deleteWord])) = acc by
          rw [if_pos h]]
      have := ih acc
      simp only [List.length_cons] at *
      omega
    · rw [show (let deleteWord := removeChar c (y : Int)
        if deleteWord ∈ acc.1 then acc
        else (deleteWord :: acc.1, acc.2 ++ [deleteWord])) =
          (removeChar c (y : Int) :: acc.1, acc.2 ++ [removeChar c (y : Int)]) by
          rw [if_neg h]]
      have := ih (removeChar c (y : Int) :: acc.1,
        acc.2 ++ [removeChar c (y : Int)])
      simp only [List.length_append, List.length_singleton,
        List.length_cons, List.length_nil] at *
      omega

/-! ## C2: a found suggestion survives to the end of the loop -/

/-- `incorporate` at level `Best` keeps a result carrying the stored entry
when every emitted suggestion carries it too. -/
theorem c2_incorporate_done (st : SpellState) (p : LookupParams) (e : Entry)
    (rstr : Word) (dist : Int) (is : InnerState)
    (hr : rstr = e.word) (hload : libraryLoad st p.dictName e.word = some e)
    (hlevel : p.suggestionLevel = SuggestionLevel.best)
    (hdone : ∃ x ∈ is.results, x.entry = e) :
    ∃ x ∈ (incorporate st p rstr dist is).results, x.entry = e := by
  have hnew : newDictSuggestion st p.dictName rstr dist = ⟨dist, e⟩ := by
    rw [newDictSuggestion, hr, hload]
    rfl
  rw [incorporate]
  by_cases h1 : dist ≤ is.editDistance
  · rw [if_pos h1]
    rcases hdone with ⟨x, hx, hxe⟩
    cases hres : is.results with
    | nil => rw [hres] at hx; cases hx
    | cons first rest =>
      dsimp only
      rw [hlevel]
      dsimp only
      by_cases h2 : dist < is.editDistance ∨
          ((libraryLoad st p.dictName rstr).getD zeroEntry).frequency >
            first.entry.frequency
      · rw [if_pos h2]
        exact ⟨newDictSuggestion st p.dictName rstr dist,
          List.mem_cons_self _ _, by rw [hnew]⟩
      · rw [if_neg h2]
        exact ⟨x, hx, hxe⟩
  · rw [if_neg h1]
    exact hdone

/-- The filter cascade keeps a found result, for records carrying the
stored word. -/
theorem c2_process_done (st : SpellState) (p : LookupParams) (e : Entry)
    (input : Word) (il ipl : Int) (cand : Word) (cl : Int) (is : InnerState)
    (r : DeleteEntry) (hr : r.str = e.word)
    (hload : libraryLoad st p.dictName e.word = some e)
    (hlevel : p.suggestionLevel = SuggestionLevel.best)
    (hdone : ∃ x ∈ is.results, x.entry = e) :
    ∃ x ∈ (processSuggestion st p input il ipl cand cl is r).results,
      x.entry = e := by
  rw [processSuggestion]
  dsimp only
  split_ifs <;>
    first
      | exact hdone
      | exact c2_incorporate_done st p e r.str _ _ hr hload hlevel hdone

/-- Folding the filter cascade over a bucket of records carrying the stored
word keeps a found result. -/
theorem c2_fold_done (st : SpellState) (p : LookupParams) (e : Entry)
    (input : Word) (il ipl : Int) (cand : Word) (cl : Int) :
    ∀ (bucket : List DeleteEntry) (is : InnerState),
      (∀ r ∈ bucket, r.str = e.word) →
      (libraryLoad st p.dictName e.word = some e) →
      (p.suggestionLevel = SuggestionLevel.best) →
      (∃ x ∈ is.results, x.entry = e) →
      ∃ x ∈ (bucket.foldl
        (processSuggestion st p input il ipl cand cl) is).results,
        x.entry = e := by
  intro bucket
  induction bucket with
  | nil => intro is _ _ _ hdone; exact hdone
  | cons r t ih =>
    intro is hb hload hlevel hdone
    rw [List.foldl_cons]
    exact ih _ (fun r2 h2 => hb r2 (List.mem_cons_of_mem _ h2)) hload hlevel
      (c2_process_done st p e input il ipl cand cl is r
        (hb r (List.mem_cons_self _ _)) hload hlevel hdone)

/-- Once `results` holds a suggestion carrying the stored entry, the outer
candidate loop returns one (level `Best`, all buckets carrying the word). -/
theorem c2_loop_done (st : SpellState) (p : LookupParams) (e : Entry)
    (input : Word) (il ipl : Int)
    (hbuckets : ∀ k, ∀ r ∈ (dictDeletesLoad st p.dictName k).getD [],
      r.str = e.word)
    (hload : libraryLoad st p.dictName e.word = some e)
    (hlevel : p.suggestionLevel = SuggestionLevel.best) :
    ∀ (fuel : Nat) (ls : LoopState),
      (∃ x ∈ ls.results, x.entry = e) →
      ∃ x ∈ lookupLoop st p true input il ipl fuel ls, x.entry = e := by
  intro fuel
  induction fuel with
  | zero => intro ls hdone; exact hdone
  | succ n ih =>
    intro ls hdone
    rw [lookupLoop]
    cases hc : ls.candidates[ls.idx]? with
    | none => exact hdone
    | some cand =>
      dsimp only
      by_cases h1 : ipl - (cand.length : Int) > ls.editDistance
      · rw [if_pos h1, hlevel]
        rw [if_neg (by intro h; cases h)]
        exact hdone
      · rw [if_neg h1]
        refine ih _ ?_
        have hin := c2_fold_done st p e input il ipl cand (cand.length : Int)
          ((dictDeletesLoad st p.dictName (getStringHash cand)).getD [])
          ⟨ls.consideredSuggestions, ls.results, ls.editDistance⟩
          (hbuckets (getStringHash cand)) hload hlevel hdone
        split_ifs <;> exact hin

/-- `incorporate` with empty `results` and a passing distance appends the
suggestion (which carries the stored entry when the word is stored). -/
theorem c2_incorporate_empty (st : SpellState) (p : LookupParams) (e : Entry)
    (rstr : Word) (dist : Int) (is : InnerState)
    (hr : rstr = e.word) (hload : libraryLoad st p.dictName e.word = some e)
    (hres : is.results = []) (hd : dist ≤ is.editDistance) :
    ∃ x ∈ (incorporate st p rstr dist is).results, x.entry = e := by
  have hnew : newDictSuggestion st p.dictName rstr dist = ⟨dist, e⟩ := by
    rw [newDictSuggestion, hr, hload]
    rfl
  rw [incorporate, if_pos hd, hres]
  dsimp only
  exact ⟨newDictSuggestion st p.dictName rstr dist, by simp, by rw [hnew]⟩

/-- Processing the stored word's record from the searching state (empty
results, only the input considered) either changes nothing or lands a
result carrying the stored entry. -/
theorem c2_process_dichotomy (st : SpellState) (p : LookupParams) (e : Entry)
    (w w' : Word) (il ipl : Int) (cand : Word) (cl : Int) (is : InnerState)
    (hw : e.word = w) (hne : w ≠ w')
    (hload : libraryLoad st p.dictName w = some e)
    (hdist : p.distanceFunction w' w is.editDistance = 1)
    (heps : (1 : Int) ≤ is.editDistance)
    (hconsidered : is.consideredSuggestions = [w'])
    (hres : is.results = []) :
    processSuggestion st p w' il ipl cand cl is (DeleteEntry.mk w.length w w)
        = is ∨
      ∃ x ∈ (processSuggestion st p w' il ipl cand cl is
        (DeleteEntry.mk w.length w w)).results, x.entry = e := by
  have hloadw : libraryLoad st p.dictName e.word = some e := by rw [hw]; exact hload
  rw [processSuggestion]
  dsimp only
  rw [if_neg hne]
  by_cases h2 : intAbs ((w.length : Int) - il) > is.editDistance ∨
      (w.length : Int) < cl ∨ ((w.length : Int) = cl ∧ w ≠ cand)
  · rw [if_pos h2]; exact Or.inl rfl
  · rw [if_neg h2]
    by_cases h3 : min (w.length : Int) (p.prefixLength : Int) > ipl ∧
        min (w.length : Int) (p.prefixLength : Int) - cl > is.editDistance
    · rw [if_pos h3]; exact Or.inl rfl
    · rw [if_neg h3]
      by_cases h4 : cl = 0
      · rw [if_pos h4]
        by_cases h5 : max il (w.length : Int) > is.editDistance ∨
            w ∈ is.consideredSuggestions
        · rw [if_pos h5]; exact Or.inl rfl
        · rw [if_neg h5]
          refine Or.inr (c2_incorporate_empty st p e w _ _ (hw.symm) hloadw
            hres ?_)
          rcases not_or.mp h5 with ⟨h6, -⟩
          show max il (w.length : Int) ≤ is.editDistance
          omega
      · rw [if_neg h4]
        by_cases h6 : (w.length : Int) = 1
        · rw [if_pos h6]
          by_cases h7 : (if goContains w' w then il - 1 else il) >
              is.editDistance ∨ w ∈ is.consideredSuggestions
          · rw [if_pos h7]; exact Or.inl rfl
          · rw [if_neg h7]
            refine Or.inr (c2_incorporate_empty st p e w _ _ (hw.symm) hloadw
              hres ?_)
            rcases not_or.mp h7 with ⟨h8, -⟩
            show (if goContains w' w then il - 1 else il) ≤ is.editDistance
            split_ifs at h8 ⊢ <;> omega
        · rw [if_neg h6]
          have hmem : w ∉ is.consideredSuggestions := by
            rw [hconsidered, List.mem_singleton]
            exact fun h => hne h
          rw [if_neg hmem, hdist]
          rw [if_neg (by omega)]
          exact Or.inr (c2_incorporate_empty st p e w _ _ (hw.symm) hloadw
            hres heps)

/-- Processing the stored word's record at the matching candidate from the
searching state passes every filter and lands the stored entry. -/
theorem c2_process_star (st : SpellState) (p : LookupParams) (e : Entry)
    (w w' : Word) (il ipl : Int) (cand : Word) (cl : Int) (is : InnerState)
    (hw : e.word = w) (hw2 : 2 ≤ w.length) (hne : w ≠ w')
    (hload : libraryLoad st p.dictName w = some e)
    (hdist : p.distanceFunction w' w is.editDistance = 1)
    (heps : (1 : Int) ≤ is.editDistance)
    (hconsidered : is.consideredSuggestions = [w'])
    (hres : is.results = [])
    (hil : il = (w'.length : Int))
    (hipl : ipl = min il (p.prefixLength : Int))
    (hcl : cl = (cand.length : Int))
    (hlen3 : w'.length + 1 = w.length ∨ w'.length = w.length + 1 ∨
      w'.length = w.length)
    (hB : cand.length ≤ w.length)
    (hC : cand.length = w.length → cand = w)
    (hD : min w.length 7 ≤ min w'.length 7 ∨ min w.length 7 ≤ cand.length + 1)
    (hE : 1 ≤ cand.length)
    (hP : p.prefixLength = 7) :
    ∃ x ∈ (processSuggestion st p w' il ipl cand cl is
      (DeleteEntry.mk w.length w w)).results, x.entry = e := by
  have hloadw : libraryLoad st p.dictName e.word = some e := by rw [hw]; exact hload
  rw [processSuggestion]
  dsimp only
  rw [if_neg hne]
  rw [if_neg (show ¬(intAbs ((w.length : Int) - il) > is.editDistance ∨
      (w.length : Int) < cl ∨ ((w.length : Int) = cl ∧ w ≠ cand)) from ?_)]
  rotate_left
  · rintro (h | h | ⟨h1, h2⟩)
    · rw [intAbs] at h
      rw [hil] at h
      split_ifs at h <;> omega
    · rw [hcl] at h
      omega
    · rw [hcl, Nat.cast_inj] at h1
      exact h2 (hC h1.symm).symm
  rw [if_neg (show ¬(min (w.length : Int) (p.prefixLength : Int) > ipl ∧
      min (w.length : Int) (p.prefixLength : Int) - cl > is.editDistance)
      from ?_)]
  rotate_left
  · rintro ⟨h1, h2⟩
    rw [hP] at h1 h2
    rw [hipl, hil] at h1
    rw [hcl] at h2
    rcases hD with hD | hD <;> push_cast at h1 h2 <;> omega
  rw [if_neg (show ¬cl = 0 from by rw [hcl]; omega)]
  rw [if_neg (show ¬((w.length : Int) = 1) from by omega)]
  have hmem : w ∉ is.consideredSuggestions := by
    rw [hconsidered, List.mem_singleton]
    exact fun h => hne h
  rw [if_neg hmem, hdist]
  rw [if_neg (by omega)]
  exact c2_incorporate_empty st p e w _ _ (hw.symm) hloadw hres heps

/-- The candidate walk: if the matching candidate sits `k` positions ahead
in the queue, all candidates up to it are long enough to avoid the early
break, and the searching state holds, then the loop returns a suggestion
carrying the stored entry. -/
theorem c2_walk (st : SpellState) (p : LookupParams) (e : Entry)
    (w w' : Word) (il ipl eps : Int) (cStar : Word)
    (hw : e.word = w) (hw2 : 2 ≤ w.length) (hne : w ≠ w')
    (hload : libraryLoad st p.dictName w = some e)
    (hlevel : p.suggestionLevel = SuggestionLevel.best)
    (hbsh : ∀ k, (dictDeletesLoad st p.dictName k).getD [] = [] ∨
      (dictDeletesLoad st p.dictName k).getD [] =
        [DeleteEntry.mk w.length w w])
    (hdistv : p.distanceFunction w' w eps = 1)
    (heps : (1 : Int) ≤ eps)
    (hil : il = (w'.length : Int))
    (hipl : ipl = min il (p.prefixLength : Int))
    (hlen3 : w'.length + 1 = w.length ∨ w'.length = w.length + 1 ∨
      w'.length = w.length)
    (hstarb : (dictDeletesLoad st p.dictName (getStringHash cStar)).getD []
      = [DeleteEntry.mk w.length w w])
    (hB : cStar.length ≤ w.length)
    (hC : cStar.length = w.length → cStar = w)
    (hD : min w.length 7 ≤ min w'.length 7 ∨ min w.length 7 ≤ cStar.length + 1)
    (hE : 1 ≤ cStar.length)
    (hP : p.prefixLength = 7) :
    ∀ (k fuel : Nat) (ls : LoopState),
      ls.results = [] → ls.consideredSuggestions = [w'] →
      ls.editDistance = eps →
      ls.candidates[ls.idx + k]? = some cStar →
      (∀ t, t ≤ k → ∀ c : Word, ls.candidates[ls.idx + t]? = some c →
        ipl ≤ (c.length : Int) + 1) →
      k + 1 ≤ fuel →
      ∃ x ∈ lookupLoop st p true w' il ipl fuel ls, x.entry = e := by
  have hloadw : libraryLoad st p.dictName e.word = some e := by
    rw [hw]; exact hload
  have hbstr : ∀ k, ∀ r ∈ (dictDeletesLoad st p.dictName k).getD [],
      r.str = e.word := by
    intro k r hr
    rcases hbsh k with h | h
    · rw [h] at hr; cases hr
    · rw [h] at hr
      rw [List.mem_singleton.mp hr, hw]
  intro k
  induction k with
  | zero =>
    intro fuel ls hres hcons hed hcand hlens hfuel
    cases fuel with
    | zero => omega
    | succ n =>
      rw [lookupLoop]
      simp only [Nat.add_zero] at hcand
      rw [hcand]
      dsimp only
      have hstarlen : ipl ≤ (cStar.length : Int) + 1 :=
        hlens 0 (le_refl 0) cStar (by simpa using hcand)
      rw [if_neg (show ¬(ipl - (cStar.length : Int) > ls.editDistance) from by
        rw [hed]; omega)]
      rw [hstarb, List.foldl_cons, List.foldl_nil]
      have hstar := c2_process_star st p e w w' il ipl cStar
        (cStar.length : Int)
        ⟨ls.consideredSuggestions, ls.results, ls.editDistance⟩
        hw hw2 hne hload
        (show p.distanceFunction w' w ls.editDistance = 1 from by
          rw [hed]; exact hdistv)
        (show (1 : Int) ≤ ls.editDistance from by rw [hed]; exact heps)
        hcons hres hil hipl rfl hlen3 hB hC hD hE hP
      split_ifs <;>
        exact c2_loop_done st p e w' il ipl hbstr hloadw hlevel n _ hstar
  | succ m ih =>
    intro fuel ls hres hcons hed hcand hlens hfuel
    cases fuel with
    | zero => omega
    | succ n =>
      rw [lookupLoop]
      have hidxlt : ls.idx + (m + 1) < ls.candidates.length :=
        (List.getElem?_eq_some.mp hcand).1
      have hlt0 : ls.idx < ls.candidates.length := by omega
      have hc0 : ls.candidates[ls.idx]? = some ls.candidates[ls.idx] :=
        List.getElem?_eq_getElem hlt0
      rw [hc0]
      dsimp only
      have hclen : ipl ≤ ((ls.candidates[ls.idx]).length : Int) + 1 :=
        hlens 0 (by omega) _ (by simpa using hc0)
      rw [if_neg (show ¬(ipl - ((ls.candidates[ls.idx]).length : Int) >
          ls.editDistance) from by rw [hed]; omega)]
      have hih : ∀ (cands2 cd2 : List Word),
          (∃ ex, cands2 = ls.candidates ++ ex) →
          ∃ x ∈ lookupLoop st p true w' il ipl n
            ⟨cands2, ls.idx + 1, cd2, ls.consideredSuggestions, ls.results,
              ls.editDistance⟩, x.entry = e := by
        rintro cands2 cd2 ⟨ex, hex⟩
        subst hex
        refine ih n _ hres hcons hed ?_ ?_ (by omega)
        · show (ls.candidates ++ ex)[ls.idx + 1 + m]? = some cStar
          rw [show ls.idx + 1 + m = ls.idx + (m + 1) from by omega,
            List.getElem?_append, if_pos hidxlt]
          exact hcand
        · intro t ht c hc
          have hlt : ls.idx + 1 + t < ls.candidates.length := by omega
          rw [show ls.idx + 1 + t = ls.idx + (t + 1) from by omega,
            List.getElem?_append, if_pos (by omega : ls.idx + (t + 1) <
              ls.candidates.length)] at hc
          exact hlens (t + 1) (by omega) c hc
      rcases hbsh (getStringHash (ls.candidates[ls.idx])) with hb | hb
      · rw [hb, List.foldl_nil]
        split_ifs
        · exact hih _ _ ⟨[], (List.append_nil _).symm⟩
        · rcases expandFold_extends (ls.candidates[ls.idx])
            (List.range (ls.candidates[ls.idx]).length)
            (ls.consideredDeletes, ls.candidates) with ⟨ex, hex⟩
          exact hih _ _ ⟨ex, by rw [expandLoop]; exact hex.symm ▸ rfl⟩
        · exact hih _ _ ⟨[], (List.append_nil _).symm⟩
      · rw [hb, List.foldl_cons, List.foldl_nil]
        rcases c2_process_dichotomy st p e w w' il ipl
          (ls.candidates[ls.idx]) ((ls.candidates[ls.idx]).length : Int)
          ⟨ls.consideredSuggestions, ls.results, ls.editDistance⟩
          hw hne hload
          (show p.distanceFunction w' w ls.editDistance = 1 from by
            rw [hed]; exact hdistv)
          (show (1 : Int) ≤ ls.editDistance from by rw [hed]; exact heps)
          hcons hres with hsame | hdone
        · rw [hsame]
          split_ifs
          · exact hih _ _ ⟨[], (List.append_nil _).symm⟩
          · rcases expandFold_extends (ls.candidates[ls.idx])
              (List.range (ls.candidates[ls.idx]).length)
              (ls.consideredDeletes, ls.candidates) with ⟨ex, hex⟩
            exact hih _ _ ⟨ex, by rw [expandLoop]; exact hex.symm ▸ rfl⟩
          · exact hih _ _ ⟨[], (List.append_nil _).symm⟩
        · split_ifs <;>
            exact c2_loop_done st p e w' il ipl hbstr hloadw hlevel n _ hdone

/-! ## C2: the matching candidate for a one-edit input -/

theorem oneEdit_length (w w' : Word) (h : OneEdit w w') :
    w'.length + 1 = w.length ∨ w'.length = w.length + 1 ∨
      w'.length = w.length := by
  rcases h with ⟨i, hi, he⟩ | ⟨i, hi, c, he⟩ | ⟨i, hi, c, he⟩ <;> subst he <;>
    simp only [List.length_append, List.length_take, List.length_cons,
      List.length_drop] <;> omega

/-- The first candidate `Lookup` enqueues is the 7-code-point prefix. -/
theorem substring_prefix_take (s : Word) (p : Nat) :
    substring s 0 (min (s.length : Int) (p : Int)) = s.take p := by
  rw [substring_spec]
  by_cases h0 : s.length = 0
  · rw [List.length_eq_zero.mp h0]
    simp
  · rw [if_neg (by omega : ¬((s.length : Int) ≤ 0))]
    by_cases h1 : s.length ≤ p
    · rw [show min (s.length : Int) (p : Int) = (s.length : Int) from by omega]
      rw [if_neg (by omega), if_pos (by omega : (0 : Int) ≤ 0)]
      simp [List.take_of_length_le h1]
    · rw [show min (s.length : Int) (p : Int) = (p : Int) from by omega]
      rw [if_pos ⟨by omega, by omega⟩, if_pos ⟨le_refl 0, by omega⟩]
      simp

/-- For every one-code-point edit of a stored word of length ≥ 2, some
candidate reachable from the input's 7-prefix (the prefix itself or one of
its single deletions) has its hash in the stored word's delete set and
passes every length filter of the lookup cascade. -/
theorem oneEdit_candidate (w w' : Word) (h : OneEdit w w') (hw : 2 ≤ w.length) :
    ∃ cStar : Word,
      getStringHash cStar ∈ getDeletes newSpell w ∧
      (cStar = w'.take 7 ∨
        ∃ j, j < (w'.take 7).length ∧
          cStar = removeChar (w'.take 7) ((j : Nat) : Int)) ∧
      cStar.length ≤ w.length ∧
      (cStar.length = w.length → cStar = w) ∧
      (min w.length 7 ≤ min w'.length 7 ∨
        min w.length 7 ≤ cStar.length + 1) ∧
      1 ≤ cStar.length := by
  have hmemp : getStringHash (w.take 7) ∈ getDeletes newSpell w :=
    getDeletes_mem_prefix newSpell w
  have hmemd : ∀ j, j < (w.take 7).length →
      getStringHash (removeChar (w.take 7) ((j : Nat) : Int)) ∈
        getDeletes newSpell w := by
    intro j hj
    exact getDeletes_mem_delete newSpell w j hj
      (show 1 < (w.take 7).length from by
        simp only [List.length_take]; omega)
  rcases h with ⟨i, hi, he⟩ | ⟨i, hi, c, he⟩ | ⟨i, hi, c, he⟩
  · -- deletion at i
    subst he
    have hlw' : (w.take i ++ w.drop (i + 1)).length + 1 = w.length := by
      simp only [List.length_append, List.length_take, List.length_drop]
      omega
    by_cases h7 : 7 ≤ i
    · -- deletion beyond the prefix: the prefix itself matches
      refine ⟨w.take 7, hmemp, Or.inl ?_, ?_, ?_, ?_, ?_⟩
      · rw [List.take_append_eq_append_take, List.take_take,
          show min 7 i = 7 from by omega,
          show 7 - (w.take i).length = 0 from by
            simp only [List.length_take]; omega,
          List.take_zero, List.append_nil]
      · simp only [List.length_take]; omega
      · intro hlen
        exfalso
        simp only [List.length_take] at hlen
        omega
      · left
        omega
      · simp only [List.length_take]; omega
    · have hlenA : (w.take i).length = i := by
        simp only [List.length_take]; omega
      by_cases hsmall : w.length ≤ 7
      · -- short word: the edited input itself is a depth-1 delete
        have hpw : w.take 7 = w := List.take_of_length_le hsmall
        have hrc : removeChar (w.take 7) ((i : Nat) : Int) =
            w.take i ++ w.drop (i + 1) := by
          rw [hpw]
          exact removeChar_nat w i hi
        refine ⟨w.take i ++ w.drop (i + 1), ?_, Or.inl ?_, ?_, ?_, ?_, ?_⟩
        · rw [← hrc]
          exact hmemd i (by rw [hpw]; omega)
        · exact (List.take_of_length_le
            (show (w.take i ++ w.drop (i + 1)).length ≤ 7 from by
              omega)).symm
        · omega
        · intro hlen
          exfalso
          omega
        · right
          omega
        · omega
      · -- long word, deletion inside the prefix
        have hpin : (w.take i ++ w.drop (i + 1)).take 7 =
            w.take i ++ (w.drop (i + 1)).take (7 - i) := by
          rw [List.take_append_eq_append_take,
            List.take_of_length_le (show (w.take i).length ≤ 7 from by omega),
            hlenA]
        have hpinlen : ((w.take i ++ w.drop (i + 1)).take 7).length = 7 := by
          simp only [List.length_take, List.length_append, List.length_drop]
          omega
        have hstar_val :
            removeChar ((w.take i ++ w.drop (i + 1)).take 7) ((6 : Nat) : Int) =
              w.take i ++ (w.drop (i + 1)).take (6 - i) := by
          rw [removeChar_nat _ 6 (by rw [hpinlen]; omega), hpin,
            List.take_append_eq_append_take, List.drop_append_eq_append_drop,
            List.take_of_length_le (show (w.take i).length ≤ 6 from by omega),
            hlenA, List.take_take,
            show min (6 - i) (7 - i) = 6 - i from by omega,
            List.drop_of_length_le
              (show (w.take i).length ≤ 6 + 1 from by omega),
            List.drop_of_length_le
              (show ((w.drop (i + 1)).take (7 - i)).length ≤ 6 + 1 - i from by
                simp only [List.length_take, List.length_drop]; omega),
            List.nil_append, List.append_nil]
        have hpw_val : removeChar (w.take 7) ((i : Nat) : Int) =
            w.take i ++ (w.drop (i + 1)).take (6 - i) := by
          rw [removeChar_nat _ i
              (show i < (w.take 7).length from by
                simp only [List.length_take]; omega),
            List.take_take, show min i 7 = i from by omega, List.drop_take,
            show 7 - (i + 1) = 6 - i from by omega]
        refine ⟨removeChar ((w.take i ++ w.drop (i + 1)).take 7)
          ((6 : Nat) : Int), ?_, Or.inr ⟨6, by rw [hpinlen]; omega, rfl⟩,
          ?_, ?_, ?_, ?_⟩
        · rw [hstar_val, ← hpw_val]
          exact hmemd i (by simp only [List.length_take]; omega)
        · rw [hstar_val]
          simp only [List.length_append, List.length_take, List.length_drop]
          omega
        · rw [hstar_val]
          intro hlen
          exfalso
          simp only [List.length_append, List.length_take,
            List.length_drop] at hlen
          omega
        · left
          omega
        · rw [hstar_val]
          simp only [List.length_append, List.length_take, List.length_drop]
          omega
  · -- insertion at i
    subst he
    have hlw' : (w.take i ++ c :: w.drop i).length = w.length + 1 := by
      simp only [List.length_append, List.length_take, List.length_cons,
        List.length_drop]
      omega
    by_cases h7 : 7 ≤ i
    · -- insertion beyond the prefix
      refine ⟨w.take 7, hmemp, Or.inl ?_, ?_, ?_, ?_, ?_⟩
      · rw [List.take_append_eq_append_take, List.take_take,
          show min 7 i = 7 from by omega,
          show 7 - (w.take i).length = 0 from by
            simp only [List.length_take]; omega,
          List.take_zero, List.append_nil]
      · simp only [List.length_take]; omega
      · intro hlen
        simp only [List.length_take] at hlen
        exact List.take_of_length_le (by omega)
      · left
        omega
      · simp only [List.length_take]; omega
    · have hlenA : (w.take i).length = i := by
        simp only [List.length_take]; omega
      by_cases hsmall : w.length ≤ 6
      · -- short word: removing the inserted code point recovers the word
        have hrc : removeChar (w.take i ++ c :: w.drop i) ((i : Nat) : Int) =
            w := by
          rw [removeChar_nat _ i (by rw [hlw']; omega),
            List.take_append_eq_append_take, List.drop_append_eq_append_drop,
            List.take_of_length_le (show (w.take i).length ≤ i from by omega),
            hlenA, Nat.sub_self, List.take_zero, List.append_nil,
            List.drop_of_length_le
              (show (w.take i).length ≤ i + 1 from by omega),
            show i + 1 - i = 1 from by omega, List.drop_succ_cons,
            List.drop_zero, List.nil_append]
          exact List.take_append_drop i w
        refine ⟨w, ?_, Or.inr ⟨i, ?_, ?_⟩, le_refl _, fun _ => rfl, ?_, ?_⟩
        · have h := hmemp
          rw [List.take_of_length_le (show w.length ≤ 7 from by omega)] at h
          exact h
        · rw [List.take_of_length_le
            (show (w.take i ++ c :: w.drop i).length ≤ 7 from by omega)]
          omega
        · rw [List.take_of_length_le
            (show (w.take i ++ c :: w.drop i).length ≤ 7 from by omega), hrc]
        · left
          omega
        · omega
      · -- longer word, insertion inside the prefix
        have hpin : (w.take i ++ c :: w.drop i).take 7 =
            w.take i ++ c :: (w.drop i).take (6 - i) := by
          rw [List.take_append_eq_append_take,
            List.take_of_length_le (show (w.take i).length ≤ 7 from by omega),
            hlenA, show 7 - i = (6 - i) + 1 from by omega,
            List.take_succ_cons]
        have hpinlen : ((w.take i ++ c :: w.drop i).take 7).length = 7 := by
          simp only [List.length_take, List.length_append, List.length_cons,
            List.length_drop]
          omega
        have hstar_val :
            removeChar ((w.take i ++ c :: w.drop i).take 7) ((i : Nat) : Int) =
              w.take 6 := by
          rw [removeChar_nat _ i (by rw [hpinlen]; omega), hpin,
            List.take_append_eq_append_take, List.drop_append_eq_append_drop,
            List.take_of_length_le (show (w.take i).length ≤ i from by omega),
            hlenA, Nat.sub_self, List.take_zero, List.append_nil,
            List.drop_of_length_le
              (show (w.take i).length ≤ i + 1 from by omega),
            show i + 1 - i = 1 from by omega, List.drop_succ_cons,
            List.drop_zero, List.nil_append,
            show (6 : Nat) = i + (6 - i) from by omega, List.take_add,
            show i + (6 - i) - i = 6 - i from by omega]
        have hpw_val : removeChar (w.take 7) ((6 : Nat) : Int) = w.take 6 := by
          rw [removeChar_nat _ 6
              (show 6 < (w.take 7).length from by
                simp only [List.length_take]; omega),
            List.take_take, show min 6 7 = 6 from by omega,
            List.drop_of_length_le
              (show (w.take 7).length ≤ 6 + 1 from by
                simp only [List.length_take]; omega),
            List.append_nil]
        refine ⟨w.take 6, ?_, Or.inr ⟨i, by rw [hpinlen]; omega,
          hstar_val.symm⟩, ?_, ?_, ?_, ?_⟩
        · rw [← hpw_val]
          exact hmemd 6 (by simp only [List.length_take]; omega)
        · simp only [List.length_take]; omega
        · intro hlen
          exfalso
          simp only [List.length_take] at hlen
          omega
        · left
          omega
        · simp only [List.length_take]; omega
  · -- substitution at i
    subst he
    have hlw' : (w.take i ++ c :: w.drop (i + 1)).length = w.length := by
      simp only [List.length_append, List.length_take, List.length_cons,
        List.length_drop]
      omega
    by_cases h7 : 7 ≤ i
    · -- substitution beyond the prefix
      refine ⟨w.take 7, hmemp, Or.inl ?_, ?_, ?_, ?_, ?_⟩
      · rw [List.take_append_eq_append_take, List.take_take,
          show min 7 i = 7 from by omega,
          show 7 - (w.take i).length = 0 from by
            simp only [List.length_take]; omega,
          List.take_zero, List.append_nil]
      · simp only [List.length_take]; omega
      · intro hlen
        exfalso
        simp only [List.length_take] at hlen
        omega
      · left
        omega
      · simp only [List.length_take]; omega
    · -- substitution inside the prefix
      have hlenA : (w.take i).length = i := by
        simp only [List.length_take]; omega
      have hpin : (w.take i ++ c :: w.drop (i + 1)).take 7 =
          w.take i ++ c :: (w.drop (i + 1)).take (6 - i) := by
        rw [List.take_append_eq_append_take,
          List.take_of_length_le (show (w.take i).length ≤ 7 from by omega),
          hlenA, show 7 - i = (6 - i) + 1 from by omega, List.take_succ_cons]
      have hpinlen : i < ((w.take i ++ c :: w.drop (i + 1)).take 7).length := by
        simp only [List.length_take, List.length_append, List.length_cons,
          List.length_drop]
        omega
      have hstar_val :
          removeChar ((w.take i ++ c :: w.drop (i + 1)).take 7)
            ((i : Nat) : Int) =
            w.take i ++ (w.drop (i + 1)).take (6 - i) := by
        rw [removeChar_nat _ i hpinlen, hpin,
          List.take_append_eq_append_take, List.drop_append_eq_append_drop,
          List.take_of_length_le (show (w.take i).length ≤ i from by omega),
          hlenA, Nat.sub_self, List.take_zero, List.append_nil,
          List.drop_of_length_le
            (show (w.take i).length ≤ i + 1 from by omega),
          show i + 1 - i = 1 from by omega, List.drop_succ_cons,
          List.drop_zero, List.nil_append]
      have hpw_val : removeChar (w.take 7) ((i : Nat) : Int) =
          w.take i ++ (w.drop (i + 1)).take (6 - i) := by
        rw [removeChar_nat _ i
            (show i < (w.take 7).length from by
              simp only [List.length_take]; omega),
          List.take_take, show min i 7 = i from by omega, List.drop_take,
          show 7 - (i + 1) = 6 - i from by omega]
      refine ⟨w.take i ++ (w.drop (i + 1)).take (6 - i), ?_,
        Or.inr ⟨i, hpinlen, hstar_val.symm⟩, ?_, ?_, ?_, ?_⟩
      · rw [← hpw_val]
        exact hmemd i (by simp only [List.length_take]; omega)
      · simp only [List.length_append, List.length_take, List.length_drop]
        omega
      · intro hlen
        exfalso
        simp only [List.length_append, List.length_take,
          List.length_drop] at hlen
        omega
      · left
        omega
      · simp only [List.length_append, List.length_take, List.length_drop]
        omega

/-- Starting the candidate loop on the input's prefix: whether the matching
candidate is the prefix itself or one of its single deletions (enqueued by
the first expansion), the loop lands a suggestion carrying the stored
entry. -/
theorem c2_start (st : SpellState) (p : LookupParams) (e : Entry)
    (w w' : Word) (il ipl eps : Int) (cStar pin : Word) (fuel : Nat)
    (hw : e.word = w) (hw2 : 2 ≤ w.length) (hne : w ≠ w')
    (hload : libraryLoad st p.dictName w = some e)
    (hlevel : p.suggestionLevel = SuggestionLevel.best)
    (hbsh : ∀ k, (dictDeletesLoad st p.dictName k).getD [] = [] ∨
      (dictDeletesLoad st p.dictName k).getD [] =
        [DeleteEntry.mk w.length w w])
    (hdistv : p.distanceFunction w' w eps = 1)
    (hepsI : (1 : Int) ≤ eps)
    (hil : il = (w'.length : Int))
    (hipl : ipl = min il (p.prefixLength : Int))
    (hlen3 : w'.length + 1 = w.length ∨ w'.length = w.length + 1 ∨
      w'.length = w.length)
    (hstarb : (dictDeletesLoad st p.dictName (getStringHash cStar)).getD []
      = [DeleteEntry.mk w.length w w])
    (hB : cStar.length ≤ w.length)
    (hC : cStar.length = w.length → cStar = w)
    (hD : min w.length 7 ≤ min w'.length 7 ∨ min w.length 7 ≤ cStar.length + 1)
    (hE : 1 ≤ cStar.length)
    (hP : p.prefixLength = 7)
    (hpin : pin = w'.take 7)
    (hsrc : cStar = pin ∨
      ∃ j, j < pin.length ∧ cStar = removeChar pin ((j : Nat) : Int))
    (hfuelb : pin.length ≤ fuel) :
    ∃ x ∈ lookupLoop st p true w' il ipl (fuel + 1)
      ⟨[pin], 0, [], [w'], [], eps⟩, x.entry = e := by
  have hipl_pin : ipl = (pin.length : Int) := by
    rw [hipl, hil, hP, hpin]
    simp only [List.length_take]
    push_cast
    omega
  rcases hsrc with hs | ⟨j, hj, hs⟩
  · subst hs
    refine c2_walk st p e w w' il ipl eps cStar hw hw2 hne hload hlevel hbsh
      hdistv hepsI hil hipl hlen3 hstarb hB hC hD hE hP 0 (fuel + 1)
      ⟨[cStar], 0, [], [w'], [], eps⟩ rfl rfl rfl (by simp) ?_ (by omega)
    intro t ht c hc
    have ht0 : t = 0 := by omega
    subst ht0
    simp only [Nat.add_zero, List.getElem?_cons_zero, Option.some.injEq] at hc
    rw [← hc, ← hipl_pin]
    omega
  · have hpinpos : 1 ≤ pin.length := by omega
    rw [lookupLoop]
    dsimp only
    simp only [List.getElem?_cons_zero]
    rw [if_neg (show ¬(ipl - (pin.length : Int) > eps) from by omega)]
    have hfinish : ∀ (is1 : InnerState),
        is1.consideredSuggestions = [w'] → is1.results = [] →
        is1.editDistance = eps →
        ∃ x ∈ lookupLoop st p true w' il ipl fuel
          (let ls1 : LoopState := ⟨[pin], 0, [], is1.consideredSuggestions,
            is1.results, is1.editDistance⟩
          let ls2 :=
            if ipl - (pin.length : Int) < ls1.editDistance ∧
                (pin.length : Int) ≤ (p.prefixLength : Int) then
              if True ∧ (p.suggestionLevel ≠ SuggestionLevel.all ∧
                  ipl - (pin.length : Int) > ls1.editDistance) then ls1
              else
                let ec := expandLoop pin pin.length ls1.consideredDeletes
                  ls1.candidates
                ⟨ec.2, ls1.idx, ec.1, ls1.consideredSuggestions, ls1.results,
                  ls1.editDistance⟩
            else ls1
          { ls2 with idx := ls2.idx + 1 }), x.entry = e := by
      intro is1 hcons1 hres1 hed1
      rw [hcons1, hres1, hed1]
      dsimp only
      have hple : (pin.length : Int) ≤ (p.prefixLength : Int) := by
        rw [hpin, hP]
        simp only [List.length_take]
        push_cast
        omega
      rw [if_pos ⟨by omega, hple⟩]
      rw [if_neg (by rintro ⟨-, -, hgt⟩; omega)]
      dsimp only
      rcases expandFold_extends pin (List.range pin.length) ([], [pin])
        with ⟨ex, hex⟩
      rw [expandLoop, hex]
      have hmemstar : cStar ∈
          ((List.range pin.length).foldl
            (fun (acc : List Word × List Word) (i : Nat) =>
              let deleteWord := removeChar pin (i : Int)
              if deleteWord ∈ acc.1 then acc
              else (deleteWord :: acc.1, acc.2 ++ [deleteWord]))
            ([], [pin])).2 := by
        rw [hs]
        exact expandFold_mem pin (List.range pin.length) ([], [pin]) j
          (List.mem_range.mpr hj)
          (fun u hu => absurd hu (List.not_mem_nil u))
      have hstarlen : cStar.length + 1 = pin.length := by
        rw [hs, removeChar_length pin j hj]
        omega
      rw [hex] at hmemstar
      have hstar_ex : cStar ∈ ex := by
        rcases List.mem_append.mp hmemstar with hm | hm
        · exfalso
          rw [List.mem_singleton.mp hm] at hstarlen
          omega
        · exact hm
      rcases List.getElem_of_mem hstar_ex with ⟨t, htlt, hext⟩
      have hexlen : ex.length ≤ pin.length := by
        have hl := expandFold_len pin (List.range pin.length) ([], [pin])
        rw [hex] at hl
        simp only [List.length_append, List.length_singleton,
          List.length_range] at hl
        omega
      refine c2_walk st p e w w' il ipl eps cStar hw hw2 hne hload hlevel hbsh
        hdistv hepsI hil hipl hlen3 hstarb hB hC hD hE hP t fuel
        ⟨[pin] ++ ex, 0 + 1, _, [w'], [], eps⟩ rfl rfl rfl ?_ ?_ (by omega)
      · show ([pin] ++ ex)[0 + 1 + t]? = some cStar
        rw [List.getElem?_append_right (by
          simp only [List.length_singleton]; omega), List.length_singleton,
          show 0 + 1 + t - 1 = t from by omega]
        rw [List.getElem?_eq_getElem htlt, hext]
      · intro s hs2 cc hcc
        show ipl ≤ (cc.length : Int) + 1
        have hcc2 : ([pin] ++ ex)[0 + 1 + s]? = some cc := hcc
        rw [List.getElem?_append_right (by
          simp only [List.length_singleton]; omega), List.length_singleton,
          show 0 + 1 + s - 1 = s from by omega] at hcc2
        have hccmem : cc ∈ ex := List.getElem?_mem hcc2
        have hccall : cc ∈ [pin] ++ ex := List.mem_append_right _ hccmem
        rw [← hex] at hccall
        rcases expandFold_elems pin (List.range pin.length) ([], [pin]) cc
          hccall with hm | ⟨j2, hj2, hm⟩
        · rw [List.mem_singleton.mp hm, ← hipl_pin]
          omega
        · rw [hm, removeChar_length pin j2 (List.mem_range.mp hj2)]
          rw [hipl_pin]
          push_cast
          omega
    rcases hbsh (getStringHash pin) with hb | hb
    · rw [hb, List.foldl_nil]
      exact hfinish ⟨[w'], [], eps⟩ rfl rfl rfl
    · rw [hb, List.foldl_cons, List.foldl_nil]
      rcases c2_process_dichotomy st p e w w' il ipl pin (pin.length : Int)
        ⟨[w'], [], eps⟩ hw hne hload hdistv hepsI rfl rfl with hsame | hdone
      · rw [hsame]
        exact hfinish ⟨[w'], [], eps⟩ rfl rfl rfl
      · split_ifs <;>
          exact c2_loop_done st p e w' il ipl
            (by intro k r hr
                rcases hbsh k with h | h
                · rw [h] at hr; cases hr
                · rw [h] at hr
                  rw [List.mem_singleton.mp hr, hw])
            (by rw [hw]; exact hload) hlevel fuel _ hdone

/-! ## C2: claim, counterexample and amended recall theorem -/

/-- Two words at distance 1 from each other ("ab" then "ac"). -/
def stC2a : SpellState :=
  (addEntry (addEntry newSpell ⟨1, ['a', 'b'], none⟩ defaultDict).2
    ⟨1, ['a', 'c'], none⟩ defaultDict).2

/-- A single length-1 word ("a"). -/
def stC2b : SpellState := (addEntry newSpell ⟨1, ['a'], none⟩ defaultDict).2

/-- C2, counterexample: the claim fails as stated.  (a) With both `"ab"` and
`"ac"` inserted (default options), `Lookup("ac")` with the default
`edit_distance = 2 ≥ 1` returns only the exact match `"ac"` — the level
`Best` exact-match short circuit drops `"ab"` although it is one
substitution away.  (b) With only the length-1 word `"a"` inserted,
`Lookup("b")` returns the empty list although `"b"` is one substitution
from `"a"`: no delete of the length-1 word is ever indexed. -/
theorem c2_one_edit_recall_cex :
    damerauLevenshtein ['a', 'c'] ['a', 'b'] = 1 ∧
      lookup stC2a ['a', 'c'] (defaultLookupParams stC2a) =
        [⟨0, ⟨1, ['a', 'c'], none⟩⟩] ∧
      (⟨(0 : Int), (⟨1, ['a', 'c'], none⟩ : Entry)⟩ : Suggestion).entry.word ≠
        ['a', 'b'] ∧
      damerauLevenshtein ['b'] ['a'] = 1 ∧
      lookup stC2b ['b'] (defaultLookupParams stC2b) = [] := by
  refine ⟨by decide, by decide, by decide, by decide, by decide⟩

/-- C2, amended: for a speller with default options holding exactly one
word `w` of at least two code points, every input `w'` at most one
code-point deletion, insertion or substitution away from `w` (and every
`edit_distance` ≥ 1, default options otherwise) yields a lookup result
containing a suggestion that carries the stored entry of `w`. -/
theorem c2_one_edit_recall_amended (w w' : Word) (e : Entry) (eps : Nat)
    (hw : 2 ≤ w.length) (hword : e.word = w) (hedit : OneEdit w w')
    (heps : 1 ≤ eps) :
    ∃ x ∈ lookup (addEntry newSpell e defaultDict).2 w' (c2Params eps),
      x.entry = e := by
  obtain ⟨hflag, hlib, hdd⟩ := addEntry_new_shape e defaultDict
  rw [hword] at hlib hdd
  have hload : ∀ v : Word,
      libraryLoad (addEntry newSpell e defaultDict).2 defaultDict v =
        if w = v then some e else none := by
    intro v
    rw [libraryLoad, hlib,
      show alGet [(defaultDict, [(w, e)])] defaultDict = some [(w, e)] from by
        rw [alGet, if_pos rfl],
      Option.some_bind, alGet]
    split_ifs <;> rfl
  have hloadw : libraryLoad (addEntry newSpell e defaultDict).2 defaultDict w =
      some e := by
    rw [hload w, if_pos rfl]
  have hbsh : ∀ k,
      (dictDeletesLoad (addEntry newSpell e defaultDict).2 defaultDict k).getD
          [] = [] ∨
        (dictDeletesLoad (addEntry newSpell e defaultDict).2 defaultDict
          k).getD [] = [DeleteEntry.mk w.length w w] := by
    intro k
    rw [hdd k]
    split_ifs
    · right; rfl
    · left; rfl
  by_cases hww : w' = w
  · subst hww
    rw [lookup, lookupWith]
    dsimp only
    rw [show (c2Params eps).dictName = defaultDict from rfl, hloadw]
    rw [if_pos ⟨rfl, by intro hh; cases hh⟩]
    rw [if_pos (show (some e).isSome = true from rfl)]
    refine ⟨newDictSuggestion (addEntry newSpell e defaultDict).2 defaultDict
      w' 0, List.mem_singleton.mpr rfl, ?_⟩
    show (libraryLoad (addEntry newSpell e defaultDict).2 defaultDict w').getD
      zeroEntry = e
    rw [hloadw]
    rfl
  · have hne : w ≠ w' := fun hh => hww hh.symm
    have hdl : damerauLevenshtein w' w = 1 := oneEdit_dl_eq_one w w' hedit hww
    have hlen3 := oneEdit_length w w' hedit
    obtain ⟨cStar, hhash, hsrc, hB, hC, hD, hE⟩ :=
      oneEdit_candidate w w' hedit hw
    have hloadw' : libraryLoad (addEntry newSpell e defaultDict).2 defaultDict
        w' = none := by
      rw [hload w', if_neg hne]
    have hstarb : (dictDeletesLoad (addEntry newSpell e defaultDict).2
        defaultDict (getStringHash cStar)).getD [] =
        [DeleteEntry.mk w.length w w] := by
      rw [hdd (getStringHash cStar), if_pos hhash]
      rfl
    have hdistv : (c2Params eps).distanceFunction w' w ((eps : Nat) : Int)
        = 1 := by
      show damerauLevenshteinRunes w' w ((eps : Nat) : Int) = 1
      rw [damerauLevenshteinRunes, hdl]
      rw [if_pos (by push_cast; omega)]
      push_cast
      try rfl
    have hepsI : (1 : Int) ≤ ((eps : Nat) : Int) := by push_cast; omega
    have hfuelb : (w'.take 7).length ≤ 2 ^ (w'.length + 1) + 1 := by
      have h1 := Nat.lt_two_pow w'.length
      have h2 : 2 ^ w'.length ≤ 2 ^ (w'.length + 1) :=
        Nat.pow_le_pow_right (by omega) (by omega)
      simp only [List.length_take]
      omega
    rw [lookup, lookupWith]
    dsimp only
    rw [show (c2Params eps).dictName = defaultDict from rfl, hloadw']
    rw [if_neg (by rintro ⟨h1, -⟩; cases h1)]
    rw [show (c2Params eps).editDistance = eps from rfl]
    rw [if_neg (by omega)]
    rw [if_neg (show ¬((none : Option Entry).isSome = true) from by
      intro hh; cases hh)]
    rw [show (c2Params eps).sortFunc = defaultSortFunc from rfl]
    rw [show ((c2Params eps).prefixLength : Int) = ((7 : Nat) : Int) from rfl]
    rw [substring_prefix_take w' 7]
    have hmain : ∃ x ∈ lookupLoop (addEntry newSpell e defaultDict).2
        (c2Params eps) true w' (w'.length : Int)
        (min (w'.length : Int) ((7 : Nat) : Int)) (lookupFuel w'.length)
        ⟨[w'.take 7], 0, [], [w'], [], ((eps : Nat) : Int)⟩, x.entry = e := by
      rw [show lookupFuel w'.length = (2 ^ (w'.length + 1) + 1) + 1 from by
        rw [lookupFuel]]
      exact c2_start (addEntry newSpell e defaultDict).2 (c2Params eps) e w w'
        (w'.length : Int) (min (w'.length : Int) ((7 : Nat) : Int))
        ((eps : Nat) : Int) cStar (w'.take 7) (2 ^ (w'.length + 1) + 1)
        hword hw hne hloadw rfl hbsh hdistv hepsI rfl rfl hlen3 hstarb
        hB hC hD hE rfl rfl hsrc hfuelb
    rcases hmain with ⟨x, hx, hxe⟩
    exact ⟨x, (defaultSortFunc_mem _ x).mpr hx, hxe⟩

/-- C2 witness: the amended theorem at the concrete one-word speller
`{"ab"}` and the one-deletion input `"a"` with `edit_distance = 2`. -/
theorem c2_one_edit_recall_amended_witness :
    ∃ x ∈ lookup (addEntry newSpell ⟨1, ['a', 'b'], none⟩ defaultDict).2
      ['a'] (c2Params 2), x.entry = (⟨1, ['a', 'b'], none⟩ : Entry) :=
  c2_one_edit_recall_amended ['a', 'b'] ['a'] ⟨1, ['a', 'b'], none⟩ 2
    (by decide) rfl (Or.inl ⟨1, by decide, by decide⟩) (by decide)

/-! ## C8: the `Segment` preconditions and the empty-input panic -/

/-- A speller holding the single word `"a"` with frequency 1: both `Segment`
preconditions (`longestWord ≠ 0`, `cumulativeFreq ≠ 0`) are satisfied. -/
def stC8 : SpellState := (addEntry newSpell ⟨1, ['a'], none⟩ defaultDict).2

/-- C8: on a speller passing both documented precondition checks,
`Segment("")` does not return a result or an error: it panics with a
negative slice index (`compositions[-1]`), for every interpretation of the
floating-point scoring operations.  (`stC8.longestWord = 1` and
`stC8.cumulativeFreq = 1`, so the claimed "error iff `longest_word_length = 0`
or `cumulative_frequency = 0`" predicts a successful result here.) -/
theorem c8_segment_empty_input_panics :
    ∀ (P : Type) (ops : ProbOps P) (lp : LookupParams),
      segmentGo ops stC8 lp [] = SegmentOutcome.indexPanic ∧
        stC8.longestWord = 1 ∧ stC8.cumulativeFreq = 1 := by
  intro P ops lp
  exact ⟨rfl, rfl, rfl⟩

/-! ## C9: the dead length check in the candidate-expansion step -/

/-- The candidate loop is insensitive to the dead check: under the guard
`lengthDiff < editDistance` the condition `lengthDiff > editDistance` is
false. -/
theorem lookupLoop_dead (st : SpellState) (p : LookupParams) (input : Word)
    (inputLen inputPrefixLen : Int) :
    ∀ fuel ls, lookupLoop st p true input inputLen inputPrefixLen fuel ls =
      lookupLoop st p false input inputLen inputPrefixLen fuel ls := by
  intro fuel
  induction fuel with
  | zero => intro ls; rfl
  | succ n ih =>
    intro ls
    rw [lookupLoop, lookupLoop]
    cases hc : ls.candidates[ls.idx]? with
    | none => rfl
    | some candidate =>
      dsimp only
      by_cases h1 : inputPrefixLen - (candidate.length : Int) > ls.editDistance
      · rw [if_pos h1, if_pos h1]
        by_cases h2 : p.suggestionLevel = SuggestionLevel.all
        · rw [if_pos h2, if_pos h2]
          exact ih _
        · rw [if_neg h2, if_neg h2]
      · rw [if_neg h1, if_neg h1]
        set is1 := ((dictDeletesLoad st p.dictName (getStringHash candidate)).getD []).foldl
          (processSuggestion st p input inputLen inputPrefixLen candidate
            (candidate.length : Int))
          ⟨ls.consideredSuggestions, ls.results, ls.editDistance⟩ with his1
        by_cases h3 : inputPrefixLen - (candidate.length : Int) < is1.editDistance ∧
            (candidate.length : Int) ≤ (p.prefixLength : Int)
        · have h4 : ¬(true = true ∧ (p.suggestionLevel ≠ SuggestionLevel.all ∧
              inputPrefixLen - (candidate.length : Int) > is1.editDistance)) := by
            rintro ⟨-, -, h5⟩
            omega
          have h5 : ¬(false = true ∧ (p.suggestionLevel ≠ SuggestionLevel.all ∧
              inputPrefixLen - (candidate.length : Int) > is1.editDistance)) := by
            rintro ⟨h6, -⟩
            exact Bool.false_ne_true h6
          rw [if_pos h3, if_pos h3, if_neg h4, if_neg h5]
          exact ih _
        · rw [if_neg h3, if_neg h3]
          exact ih _

/-- C9: removing the inner
`if suggestionLevel != All && lengthDiff > editDistance { continue }`
check (the `dead := false` model) never changes the result of `Lookup`, for
any speller state, input and options: the check sits under the guard
`lengthDiff < editDistance`, which contradicts `lengthDiff > editDistance`. -/
theorem c9_dead_branch_removal (st : SpellState) (input : Word) (p : LookupParams) :
    lookup st input p = lookupWith false st input p := by
  unfold lookup lookupWith
  by_cases h1 : (libraryLoad st p.dictName input).isSome ∧
      p.suggestionLevel ≠ SuggestionLevel.all
  · simp [h1]
  · simp only [h1, if_false]
    by_cases h2 : p.editDistance = 0
    · simp [h2]
    · simp only [h2, if_false]
      congr 1
      apply lookupLoop_dead

end SpellGo
